import Mathlib

/-!
# Verification of the `dudu` parallel disk-usage estimator

This file gives a shallow embedding, in Lean 4, of the core of
`dudu.go` (package `dudu`): the path utilities it relies on
(Go's `path.Clean`, `path.Dir`, `path.Join`, modelled from their
documented lexical semantics), the per-task aggregation performed by
`statter`, the traversal that discovers child tasks via `Readdir`,
the WaitGroup-based completion accounting, the task-pool / work-queue
slot discipline, and the sink-consumer loops of `DUDU`.

Strings are modelled as `List Char`; byte counts (`int64` in Go) are
modelled as `Int` (no aggregation in the claims depends on 64-bit
wraparound).
-/

namespace Dudu

/-- Paths and path segments are character lists (Go strings). -/
abbrev Path := List Char

/-- `splitSlash p` splits a path on `'/'`, keeping empty parts, exactly
like splitting a Go string on each slash byte.  `splitSlash [] = [[]]`. -/
def splitSlash : Path → List Path
  | [] => [[]]
  | c :: rest =>
    if c = '/' then [] :: splitSlash rest
    else
      match splitSlash rest with
      | [] => [[c]]
      | s :: ss => (c :: s) :: ss

/-- The stack-based segment processor of Go's `path.Clean` (lexical
cleaning, Plan 9 rules): drop empty and `"."` segments; on `".."` pop a
real segment if one is on the stack, drop it when rooted at `/` with an
empty stack, and otherwise keep the `".."`.  The accumulator `acc` holds
the already-emitted segments in reverse order. -/
def cleanSegs (rooted : Bool) (acc : List Path) : List Path → List Path
  | [] => acc.reverse
  | seg :: rest =>
    if seg = [] ∨ seg = ['.'] then cleanSegs rooted acc rest
    else if seg = ['.', '.'] then
      match acc with
      | top :: acc' =>
        if top = ['.', '.'] then cleanSegs rooted (seg :: acc) rest
        else cleanSegs rooted acc' rest
      | [] => if rooted then cleanSegs rooted [] rest else cleanSegs rooted [seg] rest
    else cleanSegs rooted (seg :: acc) rest

/-- Join segments with `'/'` separators (no leading or trailing slash). -/
def renderSegs : List Path → Path
  | [] => []
  | s :: rest =>
    match rest with
    | [] => s
    | _ :: _ => s ++ '/' :: renderSegs rest

/-- Whether the path starts with a slash (Go: `path[0] == '/'`). -/
def isRooted (p : Path) : Bool :=
  p.head? = some '/'

/-- Model of Go `path.Clean` (documented lexical algorithm): iteratively
replace runs of slashes by one slash, eliminate `.` segments, eliminate
`..` together with the preceding non-`..` segment, and eliminate `..`
segments at the beginning of a rooted path; return `"."` for an empty
result, keeping a leading `/` for rooted paths. -/
def clean (p : Path) : Path :=
  if cleanSegs (isRooted p) [] (splitSlash p) = [] then
    (if isRooted p then ['/'] else ['.'])
  else
    (if isRooted p then ['/'] else []) ++
      renderSegs (cleanSegs (isRooted p) [] (splitSlash p))

/-- The `dir` part of Go `path.Split`: everything up to and including the
final slash (empty when the path has no slash). -/
def dirRaw (p : Path) : Path :=
  (p.reverse.dropWhile (fun c => !(c == '/'))).reverse

/-- Model of Go `path.Dir`: `Clean` of the portion of the path up to and
including the final slash. -/
def dir (p : Path) : Path :=
  clean (dirRaw p)

/-- Model of Go `path.Join` on two elements: empty elements are ignored,
the rest are joined by a slash and the result is cleaned.  (In `statter`
it is called as `path.Join(item, subfi.Name())`.) -/
def join (a b : Path) : Path :=
  if a = [] ∧ b = [] then []
  else if a = [] then clean b
  else clean (a ++ '/' :: b)

/-- Number of slash characters in a path. -/
def slashCount (p : Path) : Nat :=
  p.count '/'

/-- A segment survives the first two cleaning rules (it is neither empty
nor a single dot). -/
def goodSeg (s : Path) : Bool :=
  decide (s ≠ [] ∧ s ≠ ['.'])

theorem splitSlash_cons_slash (rest : Path) :
    splitSlash ('/' :: rest) = [] :: splitSlash rest := by
  simp [splitSlash]

theorem splitSlash_cons_ne {c : Char} (rest : Path) (hc : c ≠ '/') :
    splitSlash (c :: rest) =
      match splitSlash rest with
      | [] => [[c]]
      | s :: ss => (c :: s) :: ss := by
  simp [splitSlash, hc]

theorem splitSlash_ne_nil (p : Path) : splitSlash p ≠ [] := by
  induction p with
  | nil => simp [splitSlash]
  | cons c rest ih =>
    by_cases hc : c = '/'
    · subst hc; rw [splitSlash_cons_slash]; simp
    · rw [splitSlash_cons_ne rest hc]
      cases h : splitSlash rest <;> simp

theorem splitSlash_length (p : Path) :
    (splitSlash p).length = slashCount p + 1 := by
  induction p with
  | nil => simp [splitSlash, slashCount]
  | cons c rest ih =>
    by_cases hc : c = '/'
    · subst hc
      rw [splitSlash_cons_slash, List.length_cons, ih]
      have : slashCount ('/' :: rest) = slashCount rest + 1 := by
        simp [slashCount, List.count_cons]
      omega
    · rw [splitSlash_cons_ne rest hc]
      have hcount : slashCount (c :: rest) = slashCount rest := by
        simp [slashCount, List.count_cons, Ne.symm hc]
      cases h : splitSlash rest with
      | nil => exact absurd h (splitSlash_ne_nil rest)
      | cons s ss =>
        rw [h] at ih
        simp only [List.length_cons] at ih ⊢
        omega

theorem splitSlash_no_slash {p s : Path} (hs : s ∈ splitSlash p) : '/' ∉ s := by
  induction p generalizing s with
  | nil =>
    simp only [splitSlash, List.mem_singleton] at hs
    subst hs; simp
  | cons c rest ih =>
    by_cases hc : c = '/'
    · subst hc
      rw [splitSlash_cons_slash] at hs
      rcases List.mem_cons.mp hs with hs | hs
      · subst hs; simp
      · exact ih hs
    · rw [splitSlash_cons_ne rest hc] at hs
      cases h : splitSlash rest with
      | nil => exact absurd h (splitSlash_ne_nil rest)
      | cons s0 ss =>
        rw [h] at hs
        simp only [List.mem_cons] at hs
        rcases hs with hs | hs
        · subst hs
          intro hmem
          rcases List.mem_cons.mp hmem with h1 | h1
          · exact hc h1.symm
          · exact ih (h ▸ List.mem_cons_self s0 ss) h1
        · exact ih (h ▸ List.mem_cons_of_mem s0 hs)

theorem splitSlash_getLast_of_ends_slash (q : Path) :
    (splitSlash (q ++ ['/'])).getLast? = some [] := by
  induction q with
  | nil => simp [splitSlash]
  | cons c q ih =>
    by_cases hc : c = '/'
    · subst hc
      rw [List.cons_append, splitSlash_cons_slash]
      cases h : splitSlash (q ++ ['/']) with
      | nil => exact absurd h (splitSlash_ne_nil _)
      | cons s ss =>
        rw [h] at ih
        rw [List.getLast?_cons_cons]
        exact ih
    · rw [List.cons_append, splitSlash_cons_ne _ hc]
      cases h : splitSlash (q ++ ['/']) with
      | nil => exact absurd h (splitSlash_ne_nil _)
      | cons s ss =>
        cases ss with
        | nil =>
          exfalso
          have hlen := splitSlash_length (q ++ ['/'])
          rw [h] at hlen
          have hge : slashCount (q ++ ['/']) ≥ 1 := by
            simp [slashCount, List.count_append]
          simp only [List.length_singleton] at hlen
          omega
        | cons t ts =>
          rw [h] at ih
          simp only
          rw [List.getLast?_cons_cons] at ih ⊢
          exact ih

theorem cleanSegs_nil (rooted : Bool) (acc : List Path) :
    cleanSegs rooted acc [] = acc.reverse := rfl

theorem cleanSegs_cons (rooted : Bool) (acc : List Path) (seg : Path)
    (rest : List Path) :
    cleanSegs rooted acc (seg :: rest) =
      if seg = [] ∨ seg = ['.'] then cleanSegs rooted acc rest
      else if seg = ['.', '.'] then
        match acc with
        | top :: acc2 =>
          if top = ['.', '.'] then cleanSegs rooted (seg :: acc) rest
          else cleanSegs rooted acc2 rest
        | [] =>
          if rooted then cleanSegs rooted [] rest
          else cleanSegs rooted [seg] rest
      else cleanSegs rooted (seg :: acc) rest := rfl

theorem cleanSegs_ddot_acc_cons (rooted : Bool) (top : Path) (acc2 : List Path)
    (rest : List Path) :
    cleanSegs rooted (top :: acc2) (['.', '.'] :: rest) =
      if top = ['.', '.'] then cleanSegs rooted (['.', '.'] :: top :: acc2) rest
      else cleanSegs rooted acc2 rest := by
  rw [cleanSegs_cons, if_neg (by decide), if_pos rfl]

theorem cleanSegs_ddot_acc_nil (rooted : Bool) (rest : List Path) :
    cleanSegs rooted [] (['.', '.'] :: rest) =
      if rooted then cleanSegs rooted [] rest
      else cleanSegs rooted [['.', '.']] rest := by
  rw [cleanSegs_cons, if_neg (by decide), if_pos rfl]

theorem cleanSegs_length_le (rooted : Bool) (parts : List Path) :
    ∀ acc : List Path,
      (cleanSegs rooted acc parts).length ≤ acc.length + parts.countP goodSeg := by
  induction parts with
  | nil => intro acc; simp [cleanSegs_nil]
  | cons seg rest ih =>
    intro acc
    by_cases h1 : seg = [] ∨ seg = ['.']
    · have hg : goodSeg seg = false := by
        rcases h1 with h1 | h1 <;> simp [goodSeg, h1]
      have hcp : List.countP goodSeg (seg :: rest) = List.countP goodSeg rest := by
        simp [List.countP_cons, hg]
      rw [cleanSegs_cons, if_pos h1, hcp]
      exact ih acc
    · have hg : goodSeg seg = true := by
        push_neg at h1
        simp [goodSeg, h1.1, h1.2]
      have hcp : List.countP goodSeg (seg :: rest) =
          List.countP goodSeg rest + 1 := by
        simp [List.countP_cons, hg]
      rw [hcp]
      by_cases h2 : seg = ['.', '.']
      · subst h2
        cases acc with
        | nil =>
          rw [cleanSegs_ddot_acc_nil]
          by_cases hr : rooted = true
          · rw [if_pos hr]
            have h4 := ih ([] : List Path)
            simp only [List.length_nil] at h4 ⊢
            omega
          · rw [if_neg hr]
            have h4 := ih [['.', '.']]
            simp only [List.length_singleton, List.length_nil] at h4 ⊢
            omega
        | cons top acc2 =>
          rw [cleanSegs_ddot_acc_cons]
          by_cases h3 : top = ['.', '.']
          · rw [if_pos h3]
            have h4 := ih (['.', '.'] :: top :: acc2)
            simp only [List.length_cons] at h4 ⊢
            omega
          · rw [if_neg h3]
            have h4 := ih acc2
            simp only [List.length_cons] at h4 ⊢
            omega
      · rw [cleanSegs_cons, if_neg h1, if_neg h2]
        have h4 := ih (seg :: acc)
        simp only [List.length_cons] at h4 ⊢
        omega

theorem cleanSegs_no_slash (rooted : Bool) (parts : List Path)
    (hp : ∀ s ∈ parts, '/' ∉ s) :
    ∀ acc : List Path, (∀ s ∈ acc, '/' ∉ s) →
      ∀ s ∈ cleanSegs rooted acc parts, '/' ∉ s := by
  induction parts with
  | nil =>
    intro acc hacc s hs
    rw [cleanSegs_nil] at hs
    exact hacc s (List.mem_reverse.mp hs)
  | cons seg rest ih =>
    intro acc hacc s hs
    have hseg : '/' ∉ seg := hp seg (List.mem_cons_self _ _)
    have hrest : ∀ t ∈ rest, '/' ∉ t := fun t ht => hp t (List.mem_cons_of_mem _ ht)
    by_cases h1 : seg = [] ∨ seg = ['.']
    · rw [cleanSegs_cons, if_pos h1] at hs
      exact ih hrest acc hacc s hs
    · by_cases h2 : seg = ['.', '.']
      · subst h2
        cases acc with
        | nil =>
          rw [cleanSegs_ddot_acc_nil] at hs
          by_cases hr : rooted = true
          · rw [if_pos hr] at hs
            exact ih hrest [] (by simp) s hs
          · rw [if_neg hr] at hs
            refine ih hrest [['.', '.']] ?_ s hs
            intro t ht
            rw [List.mem_singleton] at ht
            subst ht; exact hseg
        | cons top acc2 =>
          rw [cleanSegs_ddot_acc_cons] at hs
          by_cases h3 : top = ['.', '.']
          · rw [if_pos h3] at hs
            refine ih hrest (['.', '.'] :: top :: acc2) ?_ s hs
            intro t ht
            rcases List.mem_cons.mp ht with h4 | h4
            · subst h4; exact hseg
            · exact hacc t h4
          · rw [if_neg h3] at hs
            refine ih hrest acc2 ?_ s hs
            intro t ht
            exact hacc t (List.mem_cons_of_mem _ ht)
      · rw [cleanSegs_cons, if_neg h1, if_neg h2] at hs
        refine ih hrest (seg :: acc) ?_ s hs
        intro t ht
        rcases List.mem_cons.mp ht with h4 | h4
        · subst h4; exact hseg
        · exact hacc t h4

theorem renderSegs_count (segs : List Path) (hne : segs ≠ [])
    (hsf : ∀ s ∈ segs, '/' ∉ s) :
    slashCount (renderSegs segs) + 1 = segs.length := by
  induction segs with
  | nil => exact absurd rfl hne
  | cons s rest ih =>
    cases rest with
    | nil =>
      have h1 : slashCount s = 0 :=
        List.count_eq_zero.mpr (hsf s (List.mem_singleton_self s))
      simp only [renderSegs, List.length_singleton]
      omega
    | cons t ts =>
      have h1 : slashCount s = 0 :=
        List.count_eq_zero.mpr (hsf s (List.mem_cons_self _ _))
      have h2 := ih (by simp)
        (fun u hu => hsf u (List.mem_cons_of_mem _ hu))
      have h3 : slashCount (renderSegs (s :: t :: ts)) =
          slashCount s + slashCount (renderSegs (t :: ts)) + 1 := by
        simp only [renderSegs, slashCount, List.count_append,
          List.count_cons_self]
        omega
      simp only [List.length_cons] at h2 ⊢
      omega

theorem splitSlash_head_of_rooted {p : Path} (hr : isRooted p = true) :
    ∃ rest2 : List Path, splitSlash p = [] :: rest2 := by
  cases p with
  | nil => simp [isRooted] at hr
  | cons c p2 =>
    have hc : c = '/' := by simpa [isRooted] using hr
    subst hc
    exact ⟨splitSlash p2, splitSlash_cons_slash p2⟩

theorem goodSeg_nil : goodSeg [] = false := by
  simp [goodSeg]

/-- Cleaning a nonempty path that ends in a slash either collapses to
`"."` or `"/"`, or strictly reduces the number of slashes. -/
theorem clean_ends_slash_cases (q : Path) :
    clean (q ++ ['/']) = ['.'] ∨ clean (q ++ ['/']) = ['/'] ∨
      slashCount (clean (q ++ ['/'])) < slashCount (q ++ ['/']) := by
  have hlast : (splitSlash (q ++ ['/'])).getLast? = some [] :=
    splitSlash_getLast_of_ends_slash q
  have hlen : (splitSlash (q ++ ['/'])).length = slashCount (q ++ ['/']) + 1 :=
    splitSlash_length _
  have hcount1 : 1 ≤ slashCount (q ++ ['/']) := by
    simp [slashCount, List.count_append]
  obtain ⟨front, hfront⟩ := List.getLast?_eq_some_iff.mp hlast
  simp only [clean]
  cases hseg : cleanSegs (isRooted (q ++ ['/'])) [] (splitSlash (q ++ ['/'])) with
  | nil =>
    rw [if_pos rfl]
    by_cases hr : isRooted (q ++ ['/']) = true
    · rw [if_pos hr]; right; left; rfl
    · rw [if_neg hr]; left; rfl
  | cons s0 ss0 =>
    right; right
    rw [if_neg (by simp)]
    have hbound := cleanSegs_length_le (isRooted (q ++ ['/'])) (splitSlash (q ++ ['/'])) []
    rw [hseg] at hbound
    simp only [List.length_nil, Nat.zero_add] at hbound
    have hfrontlen : front.length = slashCount (q ++ ['/']) := by
      have := congrArg List.length hfront
      simp only [List.length_append, List.length_singleton] at this
      omega
    have hcpfront : (splitSlash (q ++ ['/'])).countP goodSeg =
        front.countP goodSeg := by
      rw [hfront, List.countP_append]
      simp [goodSeg_nil]
    have hsf : ∀ s ∈ cleanSegs (isRooted (q ++ ['/'])) [] (splitSlash (q ++ ['/'])),
        '/' ∉ s := by
      refine cleanSegs_no_slash _ _ ?_ [] (by simp)
      intro s hsmem
      exact splitSlash_no_slash hsmem
    rw [hseg] at hsf
    have hrender : slashCount (renderSegs (s0 :: ss0)) + 1 = (s0 :: ss0).length :=
      renderSegs_count (s0 :: ss0) (by simp) hsf
    by_cases hr : isRooted (q ++ ['/']) = true
    · rw [if_pos hr]
      obtain ⟨rest2, hhead⟩ := splitSlash_head_of_rooted hr
      cases front with
      | nil =>
        exfalso
        rw [hfront] at hlen
        simp only [List.nil_append, List.length_singleton] at hlen
        omega
      | cons f0 front2 =>
        have hf0 : f0 = [] := by
          rw [hfront] at hhead
          simp only [List.cons_append] at hhead
          exact (List.cons_eq_cons.mp hhead).1
        have hcp2 : (f0 :: front2).countP goodSeg = front2.countP goodSeg := by
          subst hf0
          simp [List.countP_cons, goodSeg_nil]
        have hcple : front2.countP goodSeg ≤ front2.length :=
          List.countP_le_length _
        have hslash : slashCount (['/'] ++ renderSegs (s0 :: ss0)) =
            slashCount (renderSegs (s0 :: ss0)) + 1 := by
          simp [slashCount]
        rw [hslash]
        simp only [List.length_cons] at hfrontlen hbound hrender
        omega
    · rw [if_neg hr]
      have hcple : front.countP goodSeg ≤ front.length :=
        List.countP_le_length _
      simp only [List.nil_append]
      simp only [List.length_cons] at hbound hrender
      omega

theorem dropWhile_ne_slash {l : Path} (hl : '/' ∈ l) :
    ∃ t : Path, l.dropWhile (fun c => !(c == '/')) = '/' :: t := by
  induction l with
  | nil => simp at hl
  | cons c rest ih =>
    by_cases hc : c = '/'
    · subst hc
      refine ⟨rest, ?_⟩
      rw [List.dropWhile_cons]
      simp
    · have hmem : '/' ∈ rest := by
        rcases List.mem_cons.mp hl with h | h
        · exact absurd h.symm hc
        · exact h
      obtain ⟨t, ht⟩ := ih hmem
      refine ⟨t, ?_⟩
      rw [List.dropWhile_cons]
      simp [hc, ht]

theorem dirRaw_eq_nil {p : Path} (hp : '/' ∉ p) : dirRaw p = [] := by
  have h1 : p.reverse.dropWhile (fun c => !(c == '/')) = [] := by
    rw [List.dropWhile_eq_nil_iff]
    intro x hx
    have hxp : x ∈ p := List.mem_reverse.mp hx
    have : x ≠ '/' := fun he => hp (he ▸ hxp)
    simp [this]
  simp [dirRaw, h1]

theorem dirRaw_of_mem_slash {p : Path} (hp : '/' ∈ p) :
    ∃ q : Path, dirRaw p = q ++ ['/'] := by
  obtain ⟨t, ht⟩ := @dropWhile_ne_slash p.reverse (by simpa using hp)
  exact ⟨t.reverse, by simp [dirRaw, ht]⟩

theorem slashCount_dirRaw (p : Path) : slashCount (dirRaw p) = slashCount p := by
  have hsplit : p.reverse.takeWhile (fun c => !(c == '/')) ++
      p.reverse.dropWhile (fun c => !(c == '/')) = p.reverse :=
    List.takeWhile_append_dropWhile _ _
  have htake : List.count '/' (p.reverse.takeWhile (fun c => !(c == '/'))) = 0 := by
    rw [List.count_eq_zero]
    intro hmem
    have h2 := List.mem_takeWhile_imp hmem
    simp at h2
  have hcnt : List.count '/' p.reverse =
      List.count '/' (p.reverse.dropWhile (fun c => !(c == '/'))) := by
    conv_lhs => rw [← hsplit]
    rw [List.count_append, htake]
    omega
  simp only [dirRaw, slashCount]
  rw [List.count_reverse, ← hcnt, List.count_reverse]

/-- The loop in `statter` stops the ancestor walk at `"."` or `"/"`
(dudu.go line 328 / 342). -/
def stopPath (p : Path) : Prop :=
  p = ['.'] ∨ p = ['/']

instance stopPath.instDecidable : DecidablePred stopPath := fun p => by
  unfold stopPath
  infer_instance

theorem clean_nil_eq : clean [] = ['.'] := by decide

/-- Termination measure for the `path.Dir` iteration. -/
def chainMeasure (p : Path) : Nat :=
  slashCount p + (if stopPath p then 0 else 1)

theorem chainMeasure_dir_lt {p : Path} (h : ¬ stopPath p) :
    chainMeasure (dir p) < chainMeasure p := by
  have hp1 : chainMeasure p = slashCount p + 1 := by simp [chainMeasure, h]
  by_cases hs : '/' ∈ p
  · obtain ⟨q, hq⟩ := dirRaw_of_mem_slash hs
    have hcnt : slashCount (dirRaw p) = slashCount p := slashCount_dirRaw p
    rw [hq] at hcnt
    have hone : 1 ≤ slashCount p := by
      simpa [slashCount, List.one_le_count_iff] using hs
    rcases clean_ends_slash_cases q with h1 | h1 | h1
    · have hd : dir p = ['.'] := by rw [dir, hq]; exact h1
      rw [hp1, hd]
      have : chainMeasure ['.'] = 0 := by simp [chainMeasure, stopPath, slashCount]
      omega
    · have hd : dir p = ['/'] := by rw [dir, hq]; exact h1
      rw [hp1, hd]
      have : chainMeasure ['/'] = 1 := by
        simp [chainMeasure, stopPath, slashCount]
      omega
    · have hlt : slashCount (dir p) < slashCount p := by
        rw [dir, hq]
        omega
      have hb : chainMeasure (dir p) ≤ slashCount (dir p) + 1 := by
        simp only [chainMeasure]
        split <;> omega
      omega
  · have hdr : dirRaw p = [] := dirRaw_eq_nil hs
    have hd : dir p = ['.'] := by rw [dir, hdr, clean_nil_eq]
    rw [hp1, hd]
    have : chainMeasure ['.'] = 0 := by simp [chainMeasure, stopPath, slashCount]
    omega

/-- The ancestor-accumulation loop with explicit step fuel; with fuel
above `chainMeasure p` it is the loop of `statter` (see
`ancestorChainF_fuel_irrel`). -/
def ancestorChainF : Nat → Path → List Path
  | 0, _ => []
  | fuel + 1, p => if stopPath p then [p] else p :: ancestorChainF fuel (dir p)

/-- The list of `dirCounts` keys visited by the ancestor-accumulation
loop of `statter` (dudu.go lines 324–333 and 338–347): the starting path,
then each `path.Dir` ancestor, ending at the first `"."` or `"/"`.
`chainMeasure p + 1` steps always suffice because `chainMeasure`
strictly decreases along `path.Dir` (`chainMeasure_dir_lt`). -/
def ancestorChain (p : Path) : List Path :=
  ancestorChainF (chainMeasure p + 1) p

theorem ancestorChainF_fuel_irrel (fuel1 : Nat) :
    ∀ (fuel2 : Nat) (p : Path), chainMeasure p < fuel1 →
      chainMeasure p < fuel2 →
      ancestorChainF fuel1 p = ancestorChainF fuel2 p := by
  induction fuel1 with
  | zero => intro fuel2 p h1 h2; omega
  | succ f ih =>
    intro fuel2 p h1 h2
    cases fuel2 with
    | zero => omega
    | succ f2 =>
      simp only [ancestorChainF]
      by_cases hs : stopPath p
      · rw [if_pos hs, if_pos hs]
      · rw [if_neg hs, if_neg hs]
        have hlt := chainMeasure_dir_lt hs
        rw [ih f2 (dir p) (by omega) (by omega)]

theorem dirIter_reaches_stop (p : Path) :
    ∃ n : Nat, n ≤ chainMeasure p ∧ stopPath (dir^[n] p) := by
  by_cases h : stopPath p
  · exact ⟨0, Nat.zero_le _, by simpa using h⟩
  · have hlt := chainMeasure_dir_lt h
    obtain ⟨n, hn, hstop⟩ := dirIter_reaches_stop (dir p)
    exact ⟨n + 1, by omega, by rwa [Function.iterate_succ_apply]⟩
termination_by chainMeasure p
decreasing_by exact chainMeasure_dir_lt h

/-! ### Paths arising from the traversal

The traversal seeded at `"."` only ever sees the root path `"."` and
paths of the form `a/b/.../c` built by `path.Join` from directory-entry
names.  Such positions are represented by their reversed segment lists
(innermost name first); `render` recovers the path string. -/

/-- Segments are file names (Go strings). -/
abbrev Seg := List Char

/-- A valid file name as returned by `Readdir`: nonempty, without `'/'`,
and distinct from the special names `"."` and `".."`. -/
def properName (n : Seg) : Prop :=
  n ≠ [] ∧ '/' ∉ n ∧ n ≠ ['.'] ∧ n ≠ ['.', '.']

instance properName.instDecidable (n : Seg) : Decidable (properName n) := by
  unfold properName
  infer_instance

/-- All segments of a (reversed) position list are valid names. -/
def properPos (rl : List Seg) : Prop :=
  ∀ n ∈ rl, properName n

instance properPos.instDecidable (rl : List Seg) : Decidable (properPos rl) := by
  unfold properPos
  infer_instance

/-- A segment as it can appear in a `path.Clean` normal-form path:
nonempty, without `'/'` and distinct from `"."` — either a valid file
name or the special segment `".."`. -/
def chainSegOk (n : Seg) : Prop :=
  n ≠ [] ∧ '/' ∉ n ∧ n ≠ ['.']

instance chainSegOk.instDecidable (n : Seg) : Decidable (chainSegOk n) := by
  unfold chainSegOk
  infer_instance

/-- All segments of a (reversed) position list are normal-form
segments. -/
def chainPosOk (rl : List Seg) : Prop :=
  ∀ n ∈ rl, chainSegOk n

theorem chainSegOk_of_properName {n : Seg} (hn : properName n) :
    chainSegOk n :=
  ⟨hn.1, hn.2.1, hn.2.2.1⟩

theorem chainSegOk_dotdot : chainSegOk ['.', '.'] := by
  refine ⟨by simp, by decide, by simp⟩

theorem chainPosOk_of_properPos {rl : List Seg} (hp : properPos rl) :
    chainPosOk rl :=
  fun n hn => chainSegOk_of_properName (hp n hn)

theorem chainPosOk_nil : chainPosOk [] := by
  intro n hn
  simp at hn

theorem chainPosOk_tail {n : Seg} {rl : List Seg}
    (hp : chainPosOk (n :: rl)) : chainPosOk rl :=
  fun m hm => hp m (List.mem_cons_of_mem _ hm)

/-- The (reversed) segment lists of `path.Clean` normal-form relative
paths: valid file names (innermost first) sitting over a run of `".."`
segments.  `Clean` keeps the leading `".."`s of an unrooted path, and
no later segment of a cleaned path can reintroduce one. -/
def dotsThenNames (rl : List Seg) : Prop :=
  ∃ ps ds, rl = ps ++ ds ∧ (∀ n ∈ ps, properName n) ∧
    (∀ d ∈ ds, d = ['.', '.'])

theorem dotsThenNames_nil : dotsThenNames [] :=
  ⟨[], [], rfl, by simp, by simp⟩

theorem dotsThenNames_of_properPos {rl : List Seg} (hp : properPos rl) :
    dotsThenNames rl :=
  ⟨rl, [], by simp, hp, by simp⟩

theorem dotsThenNames_cons {n : Seg} {rl : List Seg} (hn : properName n)
    (hp : dotsThenNames rl) : dotsThenNames (n :: rl) := by
  obtain ⟨ps, ds, hrl, hps, hds⟩ := hp
  refine ⟨n :: ps, ds, by rw [hrl]; rfl, ?_, hds⟩
  intro m hm
  rcases List.mem_cons.mp hm with h | h
  · subst h; exact hn
  · exact hps m h

theorem dotsThenNames_tail {n : Seg} {rl : List Seg}
    (hp : dotsThenNames (n :: rl)) : dotsThenNames rl := by
  obtain ⟨ps, ds, hrl, hps, hds⟩ := hp
  cases ps with
  | nil =>
    cases ds with
    | nil => simp at hrl
    | cons d ds2 =>
      rw [List.nil_append] at hrl
      injection hrl with h1 h2
      exact ⟨[], ds2, by rw [h2]; rfl, by simp,
        fun x hx => hds x (List.mem_cons_of_mem _ hx)⟩
  | cons p ps2 =>
    rw [List.cons_append] at hrl
    injection hrl with h1 h2
    exact ⟨ps2, ds, h2, fun x hx => hps x (List.mem_cons_of_mem _ hx), hds⟩

theorem dotsThenNames_chainPosOk {rl : List Seg} (hp : dotsThenNames rl) :
    chainPosOk rl := by
  obtain ⟨ps, ds, hrl, hps, hds⟩ := hp
  intro n hn
  rw [hrl] at hn
  rcases List.mem_append.mp hn with h | h
  · exact chainSegOk_of_properName (hps n h)
  · rw [hds n h]
    exact chainSegOk_dotdot

theorem dotsThenNames_append_names {ms rl : List Seg}
    (hms : ∀ m ∈ ms, properName m) (hp : dotsThenNames rl) :
    dotsThenNames (ms ++ rl) := by
  induction ms with
  | nil => simpa using hp
  | cons m ms2 ih =>
    rw [List.cons_append]
    exact dotsThenNames_cons (hms m (List.mem_cons_self _ _))
      (ih fun x hx => hms x (List.mem_cons_of_mem _ hx))

/-- Path of a position (reversed segment list, innermost first):
`render [] = "."`, `render [c, b, a] = "a/b/c"`. -/
def render : List Seg → Path
  | [] => ['.']
  | n :: rl =>
    match rl with
    | [] => n
    | _ :: _ => render rl ++ '/' :: n

theorem splitSlash_no_slash_self {s : Path} (hs : '/' ∉ s) :
    splitSlash s = [s] := by
  induction s with
  | nil => rfl
  | cons c rest ih =>
    have hc : c ≠ '/' := fun he => hs (he ▸ List.mem_cons_self c rest)
    have hr : '/' ∉ rest := fun hm => hs (List.mem_cons_of_mem c hm)
    rw [splitSlash_cons_ne rest hc, ih hr]

theorem splitSlash_append_slash (a b : Path) :
    splitSlash (a ++ '/' :: b) = splitSlash a ++ splitSlash b := by
  induction a with
  | nil => simp [splitSlash_cons_slash, splitSlash]
  | cons c a2 ih =>
    by_cases hc : c = '/'
    · subst hc
      rw [List.cons_append, splitSlash_cons_slash, splitSlash_cons_slash, ih]
      rfl
    · rw [List.cons_append, splitSlash_cons_ne _ hc, splitSlash_cons_ne _ hc]
      cases h : splitSlash a2 with
      | nil => exact absurd h (splitSlash_ne_nil a2)
      | cons s0 ss0 =>
        rw [h] at ih
        rw [ih]
        rfl

theorem cleanSegs_proper (rooted : Bool) (parts : List Path)
    (hp : ∀ s ∈ parts, goodSeg s = true ∧ s ≠ ['.', '.']) :
    ∀ acc : List Path, cleanSegs rooted acc parts = acc.reverse ++ parts := by
  induction parts with
  | nil => intro acc; simp [cleanSegs_nil]
  | cons seg rest ih =>
    intro acc
    obtain ⟨hg, hdd⟩ := hp seg (List.mem_cons_self _ _)
    have h1 : ¬(seg = [] ∨ seg = ['.']) := by
      simp only [goodSeg, decide_eq_true_eq] at hg
      push_neg
      exact ⟨hg.1, hg.2⟩
    rw [cleanSegs_cons, if_neg h1, if_neg hdd,
      ih (fun s hsm => hp s (List.mem_cons_of_mem _ hsm)) (seg :: acc)]
    simp

theorem cleanSegs_proper_trailing_empty (rooted : Bool) (parts : List Path)
    (hp : ∀ s ∈ parts, goodSeg s = true ∧ s ≠ ['.', '.']) :
    ∀ acc : List Path,
      cleanSegs rooted acc (parts ++ [[]]) = acc.reverse ++ parts := by
  induction parts with
  | nil =>
    intro acc
    rw [List.nil_append, cleanSegs_cons, if_pos (Or.inl rfl), cleanSegs_nil]
    simp
  | cons seg rest ih =>
    intro acc
    obtain ⟨hg, hdd⟩ := hp seg (List.mem_cons_self _ _)
    have h1 : ¬(seg = [] ∨ seg = ['.']) := by
      simp only [goodSeg, decide_eq_true_eq] at hg
      push_neg
      exact ⟨hg.1, hg.2⟩
    rw [List.cons_append, cleanSegs_cons, if_neg h1, if_neg hdd,
      ih (fun s hsm => hp s (List.mem_cons_of_mem _ hsm)) (seg :: acc)]
    simp

theorem cleanSegs_dots (ds : List Path) (hds : ∀ d ∈ ds, d = ['.', '.']) :
    ∀ acc, (∀ a ∈ acc, a = ['.', '.']) → ∀ rest : List Path,
      cleanSegs false acc (ds ++ rest) =
        cleanSegs false (ds.reverse ++ acc) rest := by
  induction ds with
  | nil => intro acc hacc rest; simp
  | cons d ds2 ih =>
    intro acc hacc rest
    have hd : d = ['.', '.'] := hds d (List.mem_cons_self _ _)
    subst hd
    rw [List.cons_append]
    have hstep : cleanSegs false acc (['.', '.'] :: (ds2 ++ rest)) =
        cleanSegs false (['.', '.'] :: acc) (ds2 ++ rest) := by
      cases acc with
      | nil => rw [cleanSegs_ddot_acc_nil, if_neg (by simp)]
      | cons top acc2 =>
        rw [cleanSegs_ddot_acc_cons,
          if_pos (hacc top (List.mem_cons_self _ _))]
    rw [hstep, ih (fun x hx => hds x (List.mem_cons_of_mem _ hx))
      (['.', '.'] :: acc) ?hacc2 rest]
    · simp
    case hacc2 =>
      intro a ha
      rcases List.mem_cons.mp ha with h | h
      · exact h
      · exact hacc a h

theorem renderSegs_cons_cons (s t : Path) (ts : List Path) :
    renderSegs (s :: t :: ts) = s ++ '/' :: renderSegs (t :: ts) := by
  simp [renderSegs]

theorem render_cons_cons (n m : Seg) (ms : List Seg) :
    render (n :: m :: ms) = render (m :: ms) ++ '/' :: n := by
  simp [render]

theorem renderSegs_append_singleton (xs : List Path) (n : Path) (hxs : xs ≠ []) :
    renderSegs (xs ++ [n]) = renderSegs xs ++ '/' :: n := by
  induction xs with
  | nil => exact absurd rfl hxs
  | cons x xs2 ih =>
    cases xs2 with
    | nil => simp [renderSegs]
    | cons y ys =>
      have h2 := ih (by simp)
      have e1 : (x :: y :: ys) ++ [n] = x :: y :: (ys ++ [n]) := by simp
      have e2 : y :: (ys ++ [n]) = (y :: ys) ++ [n] := by simp
      rw [e1, renderSegs_cons_cons, e2, h2, renderSegs_cons_cons]
      simp

theorem render_eq_renderSegs (rl : List Seg) (hne : rl ≠ []) :
    renderSegs rl.reverse = render rl := by
  induction rl with
  | nil => exact absurd rfl hne
  | cons n rest ih =>
    cases rest with
    | nil => simp [render, renderSegs]
    | cons m ms =>
      have h2 := ih (by simp)
      rw [List.reverse_cons] at h2
      simp only [List.reverse_cons]
      rw [renderSegs_append_singleton _ _ (by simp), h2, render_cons_cons]

theorem render_nil : render [] = ['.'] := by
  simp [render]

theorem render_singleton (n : Seg) : render [n] = n := by
  simp [render]

theorem properName_goodSeg {n : Seg} (hn : properName n) :
    goodSeg n = true ∧ n ≠ ['.', '.'] := by
  refine ⟨?_, hn.2.2.2⟩
  simp [goodSeg, hn.1, hn.2.2.1]

theorem properPos_tail {n : Seg} {rl : List Seg} (hp : properPos (n :: rl)) :
    properPos rl :=
  fun m hm => hp m (List.mem_cons_of_mem _ hm)

theorem render_head_ne_slash (rl : List Seg) (hp : chainPosOk rl) :
    ∃ c r2, render rl = c :: r2 ∧ c ≠ '/' := by
  induction rl with
  | nil => exact ⟨'.', [], render_nil, by decide⟩
  | cons n rest ih =>
    cases rest with
    | nil =>
      have hn := hp n (List.mem_cons_self _ _)
      obtain ⟨c, r2, hc⟩ := List.exists_cons_of_ne_nil hn.1
      refine ⟨c, r2, by rw [render_singleton]; exact hc, ?_⟩
      intro he
      exact hn.2.1 (by rw [hc, he]; exact List.mem_cons_self _ _)
    | cons m ms =>
      obtain ⟨c, r2, hrend, hcne⟩ := ih (chainPosOk_tail hp)
      exact ⟨c, r2 ++ '/' :: n, by rw [render_cons_cons, hrend]; rfl, hcne⟩

theorem render_ne_nil (rl : List Seg) (hp : chainPosOk rl) :
    render rl ≠ [] := by
  obtain ⟨c, r2, hrend, -⟩ := render_head_ne_slash rl hp
  rw [hrend]
  simp

theorem splitSlash_render (rl : List Seg) (hp : chainPosOk rl)
    (hne : rl ≠ []) :
    splitSlash (render rl) = rl.reverse := by
  induction rl with
  | nil => exact absurd rfl hne
  | cons n rest ih =>
    cases rest with
    | nil =>
      rw [render_singleton,
        splitSlash_no_slash_self (hp n (List.mem_cons_self _ _)).2.1]
      simp
    | cons m ms =>
      rw [render_cons_cons, splitSlash_append_slash,
        ih (chainPosOk_tail hp) (by simp),
        splitSlash_no_slash_self (hp n (List.mem_cons_self _ _)).2.1]
      simp

theorem isRooted_render (rl : List Seg) (hp : chainPosOk rl) :
    isRooted (render rl) = false := by
  obtain ⟨c, r2, hrend, hc⟩ := render_head_ne_slash rl hp
  rw [hrend]
  simp [isRooted, hc]

theorem join_render (rl : List Seg) (n : Seg) (hp : dotsThenNames rl)
    (hn : properName n) : join (render rl) n = render (n :: rl) := by
  have hpo : chainPosOk rl := dotsThenNames_chainPosOk hp
  cases rl with
  | nil =>
    rw [render_nil, render_singleton]
    simp only [join]
    rw [if_neg (by simp), if_neg (by simp)]
    have hsplit : splitSlash (['.'] ++ '/' :: n) = [['.'], n] := by
      rw [splitSlash_append_slash, splitSlash_no_slash_self hn.2.1]
      rfl
    have hroot : isRooted (['.'] ++ '/' :: n) = false := by
      simp [isRooted]
    have hseg : cleanSegs false [] [['.'], n] = [n] := by
      rw [cleanSegs_cons, if_pos (Or.inr rfl), cleanSegs_cons,
        if_neg (by push_neg; exact ⟨hn.1, hn.2.2.1⟩), if_neg hn.2.2.2,
        cleanSegs_nil]
      rfl
    simp only [clean, hroot, hsplit, hseg]
    rw [if_neg (by simp)]
    simp [renderSegs]
  | cons m ms =>
    obtain ⟨c, r2, hrend, hc⟩ := render_head_ne_slash (m :: ms) hpo
    simp only [join]
    rw [if_neg (by rw [hrend]; simp), if_neg (by rw [hrend]; simp)]
    have hsplit : splitSlash (render (m :: ms) ++ '/' :: n) =
        (m :: ms).reverse ++ [n] := by
      rw [splitSlash_append_slash, splitSlash_render _ hpo (by simp),
        splitSlash_no_slash_self hn.2.1]
    have hroot : isRooted (render (m :: ms) ++ '/' :: n) = false := by
      rw [hrend]
      simp [isRooted, hc]
    obtain ⟨ps, ds, hrl, hps, hds⟩ := hp
    have hall : ∀ s ∈ ps.reverse ++ [n],
        goodSeg s = true ∧ s ≠ ['.', '.'] := by
      intro s hsm
      rcases List.mem_append.mp hsm with h | h
      · exact properName_goodSeg (hps s (List.mem_reverse.mp h))
      · rw [List.mem_singleton] at h
        exact h ▸ properName_goodSeg hn
    have hseg : cleanSegs false [] ((m :: ms).reverse ++ [n]) =
        (m :: ms).reverse ++ [n] := by
      rw [hrl]
      have hre : (ps ++ ds).reverse ++ [n] =
          ds.reverse ++ (ps.reverse ++ [n]) := by simp
      rw [hre]
      have h1 := cleanSegs_dots ds.reverse
        (fun d hd => hds d (List.mem_reverse.mp hd)) [] (by simp)
        (ps.reverse ++ [n])
      rw [h1, cleanSegs_proper false _ hall (ds.reverse.reverse ++ [])]
      simp
    simp only [clean, hroot, hsplit, hseg]
    rw [if_neg (by simp)]
    have he : (m :: ms).reverse ++ [n] = (n :: m :: ms).reverse := by simp
    rw [he, render_eq_renderSegs _ (by simp)]
    simp

theorem dropWhile_append_of_all {pred : Char → Bool} {l1 l2 : Path}
    (h : ∀ x ∈ l1, pred x = true) :
    (l1 ++ l2).dropWhile pred = l2.dropWhile pred := by
  induction l1 with
  | nil => rfl
  | cons x xs ih =>
    rw [List.cons_append, List.dropWhile_cons, if_pos (h x (List.mem_cons_self _ _))]
    exact ih fun y hy => h y (List.mem_cons_of_mem _ hy)

theorem dirRaw_append_no_slash (a : Path) (n : Path) (hn : '/' ∉ n) :
    dirRaw (a ++ '/' :: n) = a ++ ['/'] := by
  simp only [dirRaw]
  have hrev : (a ++ '/' :: n).reverse = n.reverse ++ '/' :: a.reverse := by
    simp
  have hall : ∀ x ∈ n.reverse, (fun c => !(c == '/')) x = true := by
    intro x hx
    have hxn : x ∈ n := List.mem_reverse.mp hx
    have hne : x ≠ '/' := fun he => hn (he ▸ hxn)
    simp [hne]
  have hdw : (n.reverse ++ '/' :: a.reverse).dropWhile
      (fun c => !(c == '/')) =
      ('/' :: a.reverse).dropWhile (fun c => !(c == '/')) :=
    dropWhile_append_of_all hall
  rw [hrev, hdw, List.dropWhile_cons]
  simp

theorem dir_render (rl : List Seg) (n : Seg)
    (hp : dotsThenNames (n :: rl)) :
    dir (render (n :: rl)) = render rl := by
  have hn : chainSegOk n :=
    dotsThenNames_chainPosOk hp n (List.mem_cons_self _ _)
  cases rl with
  | nil =>
    rw [render_singleton, dir, dirRaw_eq_nil hn.2.1, clean_nil_eq, render_nil]
  | cons m ms =>
    rw [render_cons_cons, dir,
      dirRaw_append_no_slash _ _ hn.2.1]
    have hp2 : dotsThenNames (m :: ms) := dotsThenNames_tail hp
    have hpo2 : chainPosOk (m :: ms) := dotsThenNames_chainPosOk hp2
    obtain ⟨c, r2, hrend, hc⟩ := render_head_ne_slash (m :: ms) hpo2
    have hsplit : splitSlash (render (m :: ms) ++ ['/']) =
        (m :: ms).reverse ++ [[]] := by
      have he : render (m :: ms) ++ ['/'] = render (m :: ms) ++ '/' :: [] := rfl
      rw [he, splitSlash_append_slash, splitSlash_render _ hpo2 (by simp)]
      rfl
    have hroot : isRooted (render (m :: ms) ++ ['/']) = false := by
      rw [hrend]
      simp [isRooted, hc]
    obtain ⟨ps, ds, hrl, hps, hds⟩ := hp2
    have hall : ∀ s ∈ ps.reverse, goodSeg s = true ∧ s ≠ ['.', '.'] :=
      fun s hsm => properName_goodSeg (hps s (List.mem_reverse.mp hsm))
    have hseg : cleanSegs false [] ((m :: ms).reverse ++ [[]]) =
        (m :: ms).reverse := by
      rw [hrl]
      have hre : (ps ++ ds).reverse ++ [[]] =
          ds.reverse ++ (ps.reverse ++ [[]]) := by simp
      rw [hre]
      have h1 := cleanSegs_dots ds.reverse
        (fun d hd => hds d (List.mem_reverse.mp hd)) [] (by simp)
        (ps.reverse ++ [[]])
      rw [h1, cleanSegs_proper_trailing_empty false _ hall
        (ds.reverse.reverse ++ [])]
      simp
    simp only [clean, hroot, hsplit, hseg]
    rw [if_neg (by simp)]
    rw [render_eq_renderSegs _ (by simp)]
    simp

theorem not_stop_render (rl : List Seg) (hp : chainPosOk rl)
    (hne : rl ≠ []) :
    ¬ stopPath (render rl) := by
  cases rl with
  | nil => exact absurd rfl hne
  | cons n rest =>
    have hn := hp n (List.mem_cons_self _ _)
    cases rest with
    | nil =>
      rw [render_singleton]
      intro hstop
      rcases hstop with h | h
      · exact hn.2.2 h
      · exact hn.2.1 (by rw [h]; exact List.mem_singleton_self '/')
    | cons m ms =>
      rw [render_cons_cons]
      intro hstop
      have hlen : 2 ≤ (render (m :: ms) ++ '/' :: n).length := by
        have : 1 ≤ n.length := by
          cases n with
          | nil => exact absurd rfl hn.1
          | cons a b => simp
        simp [List.length_append]
        omega
      rcases hstop with h | h <;> (rw [h] at hlen; simp at hlen)

/-- The chain of positions from a position down to the root `[]`
(each step removes the innermost segment). -/
def positionChains : List Seg → List (List Seg)
  | [] => [[]]
  | n :: rl => (n :: rl) :: positionChains rl

theorem ancestorChain_stop {p : Path} (h : stopPath p) :
    ancestorChain p = [p] := by
  rw [ancestorChain]
  simp only [ancestorChainF]
  rw [if_pos h]

theorem ancestorChain_go {p : Path} (h : ¬ stopPath p) :
    ancestorChain p = p :: ancestorChain (dir p) := by
  have h1 : ancestorChain p = p :: ancestorChainF (chainMeasure p) (dir p) := by
    rw [ancestorChain]
    simp only [ancestorChainF]
    rw [if_neg h]
  have hlt := chainMeasure_dir_lt h
  rw [h1, ancestorChain,
    ancestorChainF_fuel_irrel (chainMeasure p) (chainMeasure (dir p) + 1)
      (dir p) (by omega) (by omega)]

theorem ancestorChain_render (rl : List Seg) (hp : dotsThenNames rl) :
    ancestorChain (render rl) = (positionChains rl).map render := by
  induction rl with
  | nil =>
    rw [render_nil, ancestorChain_stop (Or.inl rfl)]
    simp [positionChains, render_nil]
  | cons n rest ih =>
    rw [ancestorChain_go
        (not_stop_render _ (dotsThenNames_chainPosOk hp) (by simp)),
      dir_render rest n hp, ih (dotsThenNames_tail hp)]
    simp [positionChains]

theorem properPos_nil : properPos [] := by
  intro n hn
  simp at hn

theorem render_inj {rl1 rl2 : List Seg} (h1 : chainPosOk rl1)
    (h2 : chainPosOk rl2) (he : render rl1 = render rl2) : rl1 = rl2 := by
  cases rl1 with
  | nil =>
    cases rl2 with
    | nil => rfl
    | cons m ms =>
      exfalso
      apply not_stop_render (m :: ms) h2 (by simp)
      rw [← he, render_nil]
      exact Or.inl rfl
  | cons n rest =>
    cases rl2 with
    | nil =>
      exfalso
      apply not_stop_render (n :: rest) h1 (by simp)
      rw [he, render_nil]
      exact Or.inl rfl
    | cons m ms =>
      have e1 := splitSlash_render (n :: rest) h1 (by simp)
      have e2 := splitSlash_render (m :: ms) h2 (by simp)
      rw [he, e2] at e1
      exact (List.reverse_inj.mp e1.symm)

theorem count_map_render (L : List (List Seg)) (rlq : List Seg)
    (hL : ∀ x ∈ L, chainPosOk x) (hq : chainPosOk rlq) :
    (L.map render).count (render rlq) = L.count rlq := by
  induction L with
  | nil => rfl
  | cons x xs ih =>
    rw [List.map_cons]
    have ihx := ih fun y hy => hL y (List.mem_cons_of_mem _ hy)
    by_cases hx : x = rlq
    · subst hx
      rw [List.count_cons_self, List.count_cons_self, ihx]
    · have hne : render rlq ≠ render x := fun he =>
        hx (render_inj (hL x (List.mem_cons_self _ _)) hq he.symm)
      rw [List.count_cons_of_ne hne,
        List.count_cons_of_ne (fun he => hx he.symm), ihx]

theorem positionChains_mem_ok {rl x : List Seg} (hp : chainPosOk rl)
    (hx : x ∈ positionChains rl) : chainPosOk x := by
  induction rl with
  | nil =>
    simp [positionChains] at hx
    subst hx
    exact chainPosOk_nil
  | cons n rest ih =>
    simp only [positionChains, List.mem_cons] at hx
    rcases hx with hx | hx
    · subst hx; exact hp
    · exact ih (chainPosOk_tail hp) hx

theorem count_positionChains (rl rlq : List Seg) :
    (positionChains rl).count rlq = if rlq <:+ rl then 1 else 0 := by
  induction rl with
  | nil =>
    rw [positionChains]
    by_cases h : rlq = ([] : List Seg)
    · subst h; simp
    · rw [if_neg (fun hs => h (List.suffix_nil.mp hs))]
      rw [List.count_singleton]
      simp [h]
  | cons n rest ih =>
    rw [positionChains]
    by_cases h : rlq = n :: rest
    · subst h
      rw [List.count_cons_self, ih, if_pos List.suffix_rfl]
      have hns : ¬ ((n :: rest) <:+ rest) := by
        intro hs
        have := hs.length_le
        simp at this
      rw [if_neg hns]
    · rw [List.count_cons_of_ne (fun he => h he), ih]
      by_cases h2 : rlq <:+ rest
      · rw [if_pos h2, if_pos (List.suffix_cons_iff.mpr (Or.inr h2))]
      · rw [if_neg h2, if_neg]
        intro hs
        rcases List.suffix_cons_iff.mp hs with hs | hs
        · exact h hs
        · exact h2 hs

theorem count_ancestorChain_renderRel (rl rlq : List Seg)
    (hp : dotsThenNames rl) (hq : chainPosOk rlq) :
    (ancestorChain (render rl)).count (render rlq) =
      if rlq <:+ rl then 1 else 0 := by
  rw [ancestorChain_render rl hp,
    count_map_render _ _
      (fun x hx => positionChains_mem_ok (dotsThenNames_chainPosOk hp) hx) hq,
    count_positionChains]

theorem count_ancestorChain_render (rl rlq : List Seg)
    (hp : properPos rl) (hq : properPos rlq) :
    (ancestorChain (render rl)).count (render rlq) =
      if rlq <:+ rl then 1 else 0 :=
  count_ancestorChain_renderRel rl rlq (dotsThenNames_of_properPos hp)
    (chainPosOk_of_properPos hq)

/-! ### Positions below the absolute base `"/"`

A `path.Clean` normal-form rooted path is `"/"` or `"/a/b/…/c"` with
valid file-name segments (cleaning a rooted path drops every leading
`".."` and every empty or `"."` part).  `renderAbs` renders a reversed
position list below `"/"`. -/

/-- Path of a position below the absolute root:
`renderAbs [] = "/"`, `renderAbs [c, b, a] = "/a/b/c"`. -/
def renderAbs : List Seg → Path
  | [] => ['/']
  | n :: rl =>
    match rl with
    | [] => '/' :: n
    | _ :: _ => renderAbs rl ++ '/' :: n

theorem renderAbs_nil : renderAbs [] = ['/'] := by
  simp [renderAbs]

theorem renderAbs_singleton (n : Seg) : renderAbs [n] = '/' :: n := by
  simp [renderAbs]

theorem renderAbs_cons_cons (n m : Seg) (ms : List Seg) :
    renderAbs (n :: m :: ms) = renderAbs (m :: ms) ++ '/' :: n := by
  simp [renderAbs]

/-- An absolute position's path is the slash-prefixed relative one. -/
theorem renderAbs_eq_slash_render (rl : List Seg) (hne : rl ≠ []) :
    renderAbs rl = '/' :: render rl := by
  induction rl with
  | nil => exact absurd rfl hne
  | cons n rest ih =>
    cases rest with
    | nil => rw [renderAbs_singleton, render_singleton]
    | cons m ms =>
      rw [renderAbs_cons_cons, render_cons_cons, ih (by simp)]
      rfl

theorem renderAbs_head (rl : List Seg) :
    ∃ r2, renderAbs rl = '/' :: r2 := by
  cases rl with
  | nil => exact ⟨[], renderAbs_nil⟩
  | cons n rest =>
    exact ⟨render (n :: rest), renderAbs_eq_slash_render _ (by simp)⟩

theorem render_ne_renderAbs (rlq rl : List Seg) (hq : chainPosOk rlq) :
    render rlq ≠ renderAbs rl := by
  obtain ⟨c, r2, hrend, hc⟩ := render_head_ne_slash rlq hq
  obtain ⟨r3, habs⟩ := renderAbs_head rl
  rw [hrend, habs]
  intro he
  injection he with h1 h2
  exact hc h1

theorem not_stop_renderAbs (rl : List Seg) (n : Seg)
    (hp : chainPosOk (n :: rl)) :
    ¬ stopPath (renderAbs (n :: rl)) := by
  rw [renderAbs_eq_slash_render _ (by simp)]
  have hne : render (n :: rl) ≠ [] := render_ne_nil _ hp
  intro hstop
  rcases hstop with h | h
  · injection h with h1 h2
    exact absurd h1 (by decide)
  · injection h with h1 h2
    exact hne h2

theorem renderAbs_inj {rl1 rl2 : List Seg} (h1 : chainPosOk rl1)
    (h2 : chainPosOk rl2) (he : renderAbs rl1 = renderAbs rl2) :
    rl1 = rl2 := by
  cases rl1 with
  | nil =>
    cases rl2 with
    | nil => rfl
    | cons m ms =>
      exfalso
      apply not_stop_renderAbs ms m h2
      rw [← he, renderAbs_nil]
      exact Or.inr rfl
  | cons n rest =>
    cases rl2 with
    | nil =>
      exfalso
      apply not_stop_renderAbs rest n h1
      rw [he, renderAbs_nil]
      exact Or.inr rfl
    | cons m ms =>
      rw [renderAbs_eq_slash_render _ (by simp),
        renderAbs_eq_slash_render _ (by simp)] at he
      injection he with h3 h4
      exact render_inj h1 h2 h4

theorem dir_dot : dir ['.'] = ['.'] := by decide

theorem dir_slash : dir ['/'] = ['/'] := by decide

theorem join_renderAbs (rl : List Seg) (n : Seg) (hp : properPos rl)
    (hn : properName n) : join (renderAbs rl) n = renderAbs (n :: rl) := by
  have hpo : chainPosOk rl := chainPosOk_of_properPos hp
  cases rl with
  | nil =>
    rw [renderAbs_nil, renderAbs_singleton]
    simp only [join]
    rw [if_neg (by simp), if_neg (by simp)]
    have hsplit : splitSlash (['/'] ++ '/' :: n) = [[], [], n] := by
      rw [List.singleton_append, splitSlash_cons_slash, splitSlash_cons_slash,
        splitSlash_no_slash_self hn.2.1]
    have hroot : isRooted (['/'] ++ '/' :: n) = true := by
      simp [isRooted]
    have hseg : cleanSegs true [] [[], [], n] = [n] := by
      rw [cleanSegs_cons, if_pos (Or.inl rfl), cleanSegs_cons,
        if_pos (Or.inl rfl), cleanSegs_cons,
        if_neg (by push_neg; exact ⟨hn.1, hn.2.2.1⟩), if_neg hn.2.2.2,
        cleanSegs_nil]
      rfl
    simp only [clean, hroot, hsplit, hseg]
    rw [if_neg (by simp)]
    simp [renderSegs]
  | cons m ms =>
    rw [renderAbs_eq_slash_render _ (by simp)]
    simp only [join]
    rw [if_neg (by simp), if_neg (by simp)]
    have hshape : ('/' :: render (m :: ms)) ++ '/' :: n =
        '/' :: (render (m :: ms) ++ '/' :: n) := rfl
    have hsplit : splitSlash (('/' :: render (m :: ms)) ++ '/' :: n) =
        [] :: ((m :: ms).reverse ++ [n]) := by
      rw [hshape, splitSlash_cons_slash, splitSlash_append_slash,
        splitSlash_render _ hpo (by simp),
        splitSlash_no_slash_self hn.2.1]
    have hroot : isRooted (('/' :: render (m :: ms)) ++ '/' :: n) = true := by
      simp [isRooted]
    have hall : ∀ s ∈ (m :: ms).reverse ++ [n],
        goodSeg s = true ∧ s ≠ ['.', '.'] := by
      intro s hsm
      rcases List.mem_append.mp hsm with h | h
      · exact properName_goodSeg (hp s (List.mem_reverse.mp h))
      · rw [List.mem_singleton] at h
        exact h ▸ properName_goodSeg hn
    have hseg : cleanSegs true [] ([] :: ((m :: ms).reverse ++ [n])) =
        (m :: ms).reverse ++ [n] := by
      rw [cleanSegs_cons, if_pos (Or.inl rfl),
        cleanSegs_proper true _ hall []]
      rfl
    simp only [clean, hroot, hsplit, hseg]
    rw [if_neg (by simp)]
    have he : (m :: ms).reverse ++ [n] = (n :: m :: ms).reverse := by simp
    rw [he, render_eq_renderSegs _ (by simp),
      renderAbs_eq_slash_render _ (by simp)]
    rfl

theorem dir_renderAbs (rl : List Seg) (n : Seg)
    (hp : properPos (n :: rl)) :
    dir (renderAbs (n :: rl)) = renderAbs rl := by
  have hn := hp n (List.mem_cons_self _ _)
  cases rl with
  | nil =>
    rw [renderAbs_singleton, dir]
    have hdr : dirRaw ('/' :: n) = ['/'] := by
      have he : ('/' :: n : Path) = [] ++ '/' :: n := rfl
      rw [he, dirRaw_append_no_slash [] n hn.2.1]
      rfl
    rw [hdr, renderAbs_nil]
    decide
  | cons m ms =>
    have hp2 : properPos (m :: ms) := properPos_tail hp
    have hpo2 : chainPosOk (m :: ms) := chainPosOk_of_properPos hp2
    rw [renderAbs_cons_cons, dir, dirRaw_append_no_slash _ _ hn.2.1]
    have hshape : renderAbs (m :: ms) ++ ['/'] =
        '/' :: (render (m :: ms) ++ '/' :: []) := by
      rw [renderAbs_eq_slash_render _ (by simp)]
      rfl
    have hsplit : splitSlash (renderAbs (m :: ms) ++ ['/']) =
        [] :: ((m :: ms).reverse ++ [[]]) := by
      rw [hshape, splitSlash_cons_slash, splitSlash_append_slash,
        splitSlash_render _ hpo2 (by simp)]
      rfl
    have hroot : isRooted (renderAbs (m :: ms) ++ ['/']) = true := by
      rw [hshape]
      simp [isRooted]
    have hall : ∀ s ∈ (m :: ms).reverse, goodSeg s = true ∧ s ≠ ['.', '.'] :=
      fun s hsm => properName_goodSeg (hp2 s (List.mem_reverse.mp hsm))
    have hseg : cleanSegs true [] ([] :: ((m :: ms).reverse ++ [[]])) =
        (m :: ms).reverse := by
      rw [cleanSegs_cons, if_pos (Or.inl rfl),
        cleanSegs_proper_trailing_empty true _ hall []]
      rfl
    simp only [clean, hroot, hsplit, hseg]
    rw [if_neg (by simp)]
    rw [render_eq_renderSegs _ (by simp),
      renderAbs_eq_slash_render _ (by simp)]
    rfl

theorem ancestorChain_renderAbs (rl : List Seg) (hp : properPos rl) :
    ancestorChain (renderAbs rl) = (positionChains rl).map renderAbs := by
  induction rl with
  | nil =>
    rw [renderAbs_nil, ancestorChain_stop (Or.inr rfl)]
    simp [positionChains, renderAbs_nil]
  | cons n rest ih =>
    rw [ancestorChain_go
        (not_stop_renderAbs rest n (chainPosOk_of_properPos hp)),
      dir_renderAbs rest n hp, ih (properPos_tail hp)]
    simp [positionChains]

/-! ### The `path.Clean` normal forms, uniformly

A cleaned path is a position over one of two bases: the relative base
`"."` (the default root; positions may carry leading `".."`s) or the
absolute base `"/"` (positions are plain file-name segments). -/

/-- Path of position `rl` below the base selected by `b`:
`renderG false` renders below `"."` (`"."`, `".."…`, `a/b/…/c`),
`renderG true` below `"/"` (`"/"`, `/a/b/…/c`). -/
def renderG (b : Bool) (rl : List Seg) : Path :=
  if b then renderAbs rl else render rl

/-- Valid positions for a base: plain file names below `"/"` (a cleaned
rooted path keeps no `".."`), file names over leading `".."`s below
`"."`. -/
def posOk (b : Bool) (rl : List Seg) : Prop :=
  if b then properPos rl else dotsThenNames rl

theorem posOk_nil (b : Bool) : posOk b [] := by
  cases b
  · exact dotsThenNames_nil
  · exact properPos_nil

theorem posOk_of_properPos {b : Bool} {rl : List Seg}
    (hp : properPos rl) : posOk b rl := by
  cases b
  · exact dotsThenNames_of_properPos hp
  · exact hp

theorem posOk_cons {b : Bool} {n : Seg} {rl : List Seg}
    (hn : properName n) (hp : posOk b rl) : posOk b (n :: rl) := by
  cases b
  · exact dotsThenNames_cons hn hp
  · intro m hm
    rcases List.mem_cons.mp hm with h | h
    · subst h; exact hn
    · exact hp m h

theorem posOk_tail {b : Bool} {n : Seg} {rl : List Seg}
    (hp : posOk b (n :: rl)) : posOk b rl := by
  cases b
  · exact dotsThenNames_tail hp
  · exact properPos_tail hp

theorem posOk_chainPosOk {b : Bool} {rl : List Seg} (hp : posOk b rl) :
    chainPosOk rl := by
  cases b
  · exact dotsThenNames_chainPosOk hp
  · exact chainPosOk_of_properPos hp

theorem posOk_append_names {b : Bool} {ms rl : List Seg}
    (hms : ∀ m ∈ ms, properName m) (hp : posOk b rl) :
    posOk b (ms ++ rl) := by
  induction ms with
  | nil => simpa using hp
  | cons m ms2 ih =>
    rw [List.cons_append]
    exact posOk_cons (hms m (List.mem_cons_self _ _))
      (ih fun x hx => hms x (List.mem_cons_of_mem _ hx))

theorem join_renderG (b : Bool) (rl : List Seg) (n : Seg)
    (hp : posOk b rl) (hn : properName n) :
    join (renderG b rl) n = renderG b (n :: rl) := by
  cases b
  · exact join_render rl n hp hn
  · exact join_renderAbs rl n hp hn

theorem dir_renderG (b : Bool) (rl : List Seg) (n : Seg)
    (hp : posOk b (n :: rl)) :
    dir (renderG b (n :: rl)) = renderG b rl := by
  cases b
  · exact dir_render rl n hp
  · exact dir_renderAbs rl n hp

theorem dir_renderG_nil (b : Bool) : dir (renderG b []) = renderG b [] := by
  cases b
  · exact dir_dot
  · exact dir_slash

theorem ancestorChain_renderG (b : Bool) (rl : List Seg)
    (hp : posOk b rl) :
    ancestorChain (renderG b rl) = (positionChains rl).map (renderG b) := by
  cases b
  · exact ancestorChain_render rl hp
  · exact ancestorChain_renderAbs rl hp

theorem renderG_inj {b : Bool} {rl1 rl2 : List Seg}
    (h1 : chainPosOk rl1) (h2 : chainPosOk rl2)
    (he : renderG b rl1 = renderG b rl2) : rl1 = rl2 := by
  cases b
  · exact render_inj h1 h2 he
  · exact renderAbs_inj h1 h2 he

theorem renderG_cross {b1 b2 : Bool} {rl1 rl2 : List Seg}
    (h1 : chainPosOk rl1) (h2 : chainPosOk rl2) (hb : b1 ≠ b2) :
    renderG b1 rl1 ≠ renderG b2 rl2 := by
  cases b1
  · cases b2
    · exact absurd rfl hb
    · exact render_ne_renderAbs rl1 rl2 h1
  · cases b2
    · exact fun he => render_ne_renderAbs rl2 rl1 h2 he.symm
    · exact absurd rfl hb

theorem count_map_renderG (b : Bool) (L : List (List Seg))
    (rlq : List Seg) (hL : ∀ x ∈ L, chainPosOk x) (hq : chainPosOk rlq) :
    (L.map (renderG b)).count (renderG b rlq) = L.count rlq := by
  induction L with
  | nil => rfl
  | cons x xs ih =>
    rw [List.map_cons]
    have ihx := ih fun y hy => hL y (List.mem_cons_of_mem _ hy)
    by_cases hx : x = rlq
    · subst hx
      rw [List.count_cons_self, List.count_cons_self, ihx]
    · have hne : renderG b rlq ≠ renderG b x := fun he =>
        hx (renderG_inj (hL x (List.mem_cons_self _ _)) hq he.symm)
      rw [List.count_cons_of_ne hne,
        List.count_cons_of_ne (fun he => hx he.symm), ihx]

/-- The central counting fact: the ancestor chain of the path of
position `rl` over base `b` passes through the path of position `rlq`
over base `bq` exactly once when the bases agree and `rlq` is below it
(a suffix of `rl`), and never otherwise. -/
theorem count_ancestorChain_renderG (b bq : Bool) (rl rlq : List Seg)
    (hp : posOk b rl) (hq : chainPosOk rlq) :
    (ancestorChain (renderG b rl)).count (renderG bq rlq) =
      if bq = b ∧ rlq <:+ rl then 1 else 0 := by
  by_cases hb : bq = b
  · subst hb
    rw [ancestorChain_renderG bq rl hp,
      count_map_renderG bq _ _
        (fun x hx => positionChains_mem_ok (posOk_chainPosOk hp) hx) hq,
      count_positionChains]
    by_cases hs : rlq <:+ rl
    · rw [if_pos hs, if_pos ⟨rfl, hs⟩]
    · rw [if_neg hs, if_neg (fun hc => hs hc.2)]
  · rw [if_neg (fun hc => hb hc.1), List.count_eq_zero]
    rw [ancestorChain_renderG b rl hp]
    intro hmem
    obtain ⟨x, hx, hxe⟩ := List.mem_map.mp hmem
    exact renderG_cross hq
      (positionChains_mem_ok (posOk_chainPosOk hp) hx) hb hxe.symm

/-! ### Filesystem model and the `statter` traversal -/

mutual
/-- A filesystem subtree as the traversal observes it.  A directory
carries its stat size, whether `os.Open` succeeds on it, the entries
`Readdir` yields before end-of-stream or an error, and whether `Readdir`
finally fails with an error other than `io.EOF`. -/
inductive FSNode : Type where
  | file (size : Int)
  | dir (size : Int) (canOpen : Bool) (entries : FSEntries) (readErr : Bool)

/-- A directory listing: name and subtree per entry. -/
inductive FSEntries : Type where
  | nil
  | cons (name : Seg) (child : FSNode) (rest : FSEntries)
end

mutual
/-- Sum of the stat sizes of all entries the traversal can reach in a
subtree, the subtree root included (children count only when the
directory can be opened, matching dudu.go 350–355). -/
def treeSize : FSNode → Int
  | .file sz => sz
  | .dir sz co entries _ => sz + (if co then entriesSize entries else 0)

def entriesSize : FSEntries → Int
  | .nil => 0
  | .cons _ c rest => treeSize c + entriesSize rest
end

/-- The names of a listing, in order. -/
def FSEntries.names : FSEntries → List Seg
  | .nil => []
  | .cons n _ rest => n :: names rest

mutual
/-- Real directory listings: every name is a valid file name, sibling
names are distinct, and the same holds in every subtree. -/
def WellFormed : FSNode → Prop
  | .file _ => True
  | .dir _ _ entries _ => entries.names.Nodup ∧ WFEntries entries

def WFEntries : FSEntries → Prop
  | .nil => True
  | .cons n c rest => properName n ∧ WellFormed c ∧ WFEntries rest
end

/-- One task as consumed by a `statter` worker (the `statTask` record of
dudu.go plus the filesystem behaviour met while processing it): the path
(`item`), the `os.FileInfo` data used by the worker (`Size`, `IsDir`),
whether `os.Open` succeeds, and whether `Readdir` ends in a non-EOF
error. -/
structure StatTask where
  item : Path
  size : Int
  isDir : Bool
  canOpen : Bool
  readErr : Bool
deriving DecidableEq

mutual
/-- All tasks processed when the traversal is seeded with the task for
node `nd` at path `p`: the task itself and, when `nd` is an openable
directory, the tasks for each `Readdir` entry at `path.Join p name`
(dudu.go 356–372). -/
def statTasksOf (p : Path) : FSNode → List StatTask
  | .file sz => [⟨p, sz, false, true, false⟩]
  | .dir sz co entries re =>
      ⟨p, sz, true, co, re⟩ :: (if co then statTasksChildren p entries else [])

def statTasksChildren (p : Path) : FSEntries → List StatTask
  | .nil => []
  | .cons n c rest => statTasksOf (join p n) c ++ statTasksChildren p rest
end

/-- The two shared maps of `DUDU` (dudu.go 42–45), as total maps with
default 0: a Go map read of a missing key yields the zero value, and
`+=` inserts. -/
structure Store where
  fileCounts : Path → Int
  dirCounts : Path → Int

def emptyStore : Store :=
  ⟨fun _ => 0, fun _ => 0⟩

/-- `m[k] += v` on a Go `map[string]int64`. -/
def bump (f : Path → Int) (k : Path) (v : Int) : Path → Int :=
  fun q => if q = k then f q + v else f q

/-- The locked ancestor-accumulation loop (dudu.go 324–333 and 338–347):
add `v` at every key on the ancestor chain of `p`. -/
def addChain (f : Path → Int) (p : Path) (v : Int) : Path → Int :=
  (ancestorChain p).foldl (fun g q => bump g q v) f

/-- The aggregation `statter` performs for one task, before any
directory is opened (dudu.go 323–348): a directory task adds its size
along its own ancestor chain in `dirCounts`; a file task adds its size
to `fileCounts[item]` and along the ancestor chain of `path.Dir item` in
`dirCounts`. -/
def statPhase (st : Store) (t : StatTask) : Store :=
  if t.isDir then
    { st with dirCounts := addChain st.dirCounts t.item t.size }
  else
    { fileCounts := bump st.fileCounts t.item t.size,
      dirCounts := addChain st.dirCounts (dir t.item) t.size }

/-- Error lines a task sends to the error sink, each tagged with the
task's path by `fmtErr`: one for a directory whose `os.Open` fails
(dudu.go 350–355), one for a `Readdir` error other than `io.EOF`
(dudu.go 373–379). -/
def taskErrors (t : StatTask) : List Path :=
  if t.isDir ∧ t.canOpen = false then [t.item]
  else if t.isDir ∧ t.readErr = true then [t.item]
  else []

/-- Folding the per-task aggregation over a list of tasks (the final
store does not depend on the order, see `runStore_perm`). -/
def runStore (ts : List StatTask) (st : Store) : Store :=
  ts.foldl statPhase st

/-- All error lines produced while processing a list of tasks. -/
def runErrors (ts : List StatTask) : List Path :=
  (ts.map taskErrors).flatten

/-- The `dirCounts` keys a task's aggregation touches. -/
def dirChain (t : StatTask) : List Path :=
  if t.isDir then ancestorChain t.item else ancestorChain (dir t.item)

theorem foldl_bump_eval (L : List Path) (f : Path → Int) (v : Int) (q : Path) :
    (L.foldl (fun g r => bump g r v) f) q = f q + v * L.count q := by
  induction L generalizing f with
  | nil => simp
  | cons r rest ih =>
    rw [List.foldl_cons, ih]
    by_cases hq : q = r
    · subst hq
      rw [List.count_cons_self]
      simp only [bump, if_pos rfl]
      push_cast
      ring
    · rw [List.count_cons_of_ne hq]
      simp only [bump, if_neg hq]

theorem addChain_eval (f : Path → Int) (p : Path) (v : Int) (q : Path) :
    addChain f p v q = f q + v * (ancestorChain p).count q :=
  foldl_bump_eval _ _ _ _

theorem statPhase_dirCounts (st : Store) (t : StatTask) (q : Path) :
    (statPhase st t).dirCounts q =
      st.dirCounts q + t.size * (dirChain t).count q := by
  by_cases h : t.isDir <;>
    simp [statPhase, dirChain, h, addChain_eval]

theorem statPhase_fileCounts (st : Store) (t : StatTask) (q : Path) :
    (statPhase st t).fileCounts q =
      st.fileCounts q +
        (if t.isDir then 0 else if q = t.item then t.size else 0) := by
  by_cases h : t.isDir
  · simp [statPhase, h]
  · by_cases hq : q = t.item <;> simp [statPhase, h, bump, hq]

/-- Total contribution of a task list to `dirCounts` at key `q`. -/
def contribSum (ts : List StatTask) (q : Path) : Int :=
  (ts.map (fun t => t.size * ((dirChain t).count q : Int))).sum

theorem contribSum_nil (q : Path) : contribSum [] q = 0 := rfl

theorem contribSum_cons (t : StatTask) (ts : List StatTask) (q : Path) :
    contribSum (t :: ts) q =
      t.size * ((dirChain t).count q : Int) + contribSum ts q := by
  simp [contribSum]

theorem contribSum_append (ts1 ts2 : List StatTask) (q : Path) :
    contribSum (ts1 ++ ts2) q = contribSum ts1 q + contribSum ts2 q := by
  simp [contribSum]

theorem runStore_dirCounts (ts : List StatTask) (st : Store) (q : Path) :
    (runStore ts st).dirCounts q = st.dirCounts q + contribSum ts q := by
  induction ts generalizing st with
  | nil => simp [runStore, contribSum_nil]
  | cons t rest ih =>
    rw [runStore, List.foldl_cons]
    have h2 := ih (statPhase st t)
    rw [runStore] at h2
    rw [h2, statPhase_dirCounts, contribSum_cons]
    ring

def FSNode.isDirNode : FSNode → Bool
  | .file _ => false
  | .dir _ _ _ _ => true

theorem suffix_length_eq {l1 l2 : List Seg} (h : l1 <:+ l2)
    (hlen : l2.length ≤ l1.length) : l1 = l2 := by
  obtain ⟨pre, hpre⟩ := h
  have h2 := congrArg List.length hpre
  simp only [List.length_append] at h2
  have h3 : pre.length = 0 := by omega
  rw [List.length_eq_zero] at h3
  subst h3
  simpa using hpre

theorem suffix_suffix_length_eq {l1 l2 L : List Seg} (h1 : l1 <:+ L)
    (h2 : l2 <:+ L) (hlen : l1.length = l2.length) : l1 = l2 := by
  obtain ⟨p1, hp1⟩ := h1
  obtain ⟨p2, hp2⟩ := h2
  rw [← hp2] at hp1
  have hplen : p1.length = p2.length := by
    have h3 := congrArg List.length hp1
    simp only [List.length_append] at h3
    omega
  exact (List.append_inj hp1 hplen).2

mutual

theorem contrib_full (nd : FSNode) (b : Bool) (rl rlq : List Seg)
    (hwf : WellFormed nd) (hp : posOk b rl) (hq : chainPosOk rlq)
    (hsuf : rlq <:+ rl)
    (hside : rlq ≠ rl ∨ nd.isDirNode = true ∨ rl = []) :
    contribSum (statTasksOf (renderG b rl) nd) (renderG b rlq) =
      treeSize nd := by
  cases nd with
  | file sz =>
    simp only [statTasksOf]
    rw [contribSum_cons, contribSum_nil]
    have hchain : dirChain ⟨renderG b rl, sz, false, true, false⟩ =
        ancestorChain (dir (renderG b rl)) := by simp [dirChain]
    rw [hchain]
    cases rl with
    | nil =>
      have hq0 : rlq = [] := List.suffix_nil.mp hsuf
      subst hq0
      rw [dir_renderG_nil,
        count_ancestorChain_renderG b b [] [] (posOk_nil b) chainPosOk_nil,
        if_pos ⟨rfl, List.suffix_rfl⟩]
      simp [treeSize]
    | cons n rest =>
      have hqne : rlq ≠ n :: rest := by
        rcases hside with h | h | h
        · exact h
        · simp [FSNode.isDirNode] at h
        · simp at h
      have hsuf2 : rlq <:+ rest := by
        rcases List.suffix_cons_iff.mp hsuf with h | h
        · exact absurd h hqne
        · exact h
      rw [dir_renderG b rest n hp,
        count_ancestorChain_renderG b b rest rlq (posOk_tail hp) hq,
        if_pos ⟨rfl, hsuf2⟩]
      simp [treeSize]
  | dir sz co entries re =>
    simp only [statTasksOf]
    rw [contribSum_cons]
    have hchain : dirChain ⟨renderG b rl, sz, true, co, re⟩ =
        ancestorChain (renderG b rl) := by simp [dirChain]
    rw [hchain, count_ancestorChain_renderG b b rl rlq hp hq,
      if_pos ⟨rfl, hsuf⟩]
    simp only [WellFormed] at hwf
    by_cases hco : co = true
    · rw [if_pos hco,
        contribEntries_full entries b rl rlq hwf.2 hp hq hsuf]
      simp [treeSize, hco]
    · have hco2 : co = false := by revert hco; cases co <;> simp
      subst hco2
      simp [treeSize, contribSum_nil]

theorem contribEntries_full (es : FSEntries) (b : Bool) (rl rlq : List Seg)
    (hwf : WFEntries es) (hp : posOk b rl) (hq : chainPosOk rlq)
    (hsuf : rlq <:+ rl) :
    contribSum (statTasksChildren (renderG b rl) es) (renderG b rlq) =
      entriesSize es := by
  cases es with
  | nil => simp [statTasksChildren, contribSum_nil, entriesSize]
  | cons n c rest =>
    simp only [statTasksChildren]
    rw [contribSum_append]
    simp only [WFEntries] at hwf
    obtain ⟨hn, hwc, hwr⟩ := hwf
    have hpn : posOk b (n :: rl) := posOk_cons hn hp
    rw [join_renderG b rl n hp hn]
    have hsufn : rlq <:+ n :: rl := hsuf.trans (List.suffix_cons n rl)
    have hne : rlq ≠ n :: rl := by
      intro he
      have h3 := hsuf.length_le
      rw [he] at h3
      simp at h3
    rw [contrib_full c b (n :: rl) rlq hwc hpn hq hsufn (Or.inl hne),
      contribEntries_full rest b rl rlq hwr hp hq hsuf]
    simp [entriesSize]

end

mutual

theorem contrib_zero (nd : FSNode) (b bq : Bool) (rl rlq : List Seg)
    (hwf : WellFormed nd) (hp : posOk b rl) (hq : chainPosOk rlq)
    (hz : bq ≠ b ∨ (¬ rlq <:+ rl ∧ ¬ rl <:+ rlq)) :
    contribSum (statTasksOf (renderG b rl) nd) (renderG bq rlq) = 0 := by
  cases nd with
  | file sz =>
    simp only [statTasksOf]
    rw [contribSum_cons, contribSum_nil]
    have hchain : dirChain ⟨renderG b rl, sz, false, true, false⟩ =
        ancestorChain (dir (renderG b rl)) := by simp [dirChain]
    rw [hchain]
    cases rl with
    | nil =>
      have hb : bq ≠ b := by
        rcases hz with h | h
        · exact h
        · exact absurd (List.nil_suffix : [] <:+ rlq) h.2
      rw [dir_renderG_nil,
        count_ancestorChain_renderG b bq [] rlq (posOk_nil b) hq,
        if_neg (fun hc => hb hc.1)]
      simp
    | cons n rest =>
      rw [dir_renderG b rest n hp,
        count_ancestorChain_renderG b bq rest rlq (posOk_tail hp) hq,
        if_neg ?hcond]
      · simp
      case hcond =>
        intro hc
        rcases hz with h | h
        · exact h hc.1
        · exact h.1 (hc.2.trans (List.suffix_cons n rest))
  | dir sz co entries re =>
    simp only [statTasksOf]
    rw [contribSum_cons]
    have hchain : dirChain ⟨renderG b rl, sz, true, co, re⟩ =
        ancestorChain (renderG b rl) := by simp [dirChain]
    rw [hchain, count_ancestorChain_renderG b bq rl rlq hp hq,
      if_neg ?hown]
    case hown =>
      intro hc
      rcases hz with h | h
      · exact h hc.1
      · exact h.1 hc.2
    simp only [WellFormed] at hwf
    by_cases hco : co = true
    · rw [if_pos hco,
        contribEntries_zero entries b bq rl rlq hwf.2 hp hq hz]
      simp
    · have hco2 : co = false := by revert hco; cases co <;> simp
      subst hco2
      simp [contribSum_nil]

theorem contribEntries_zero (es : FSEntries) (b bq : Bool)
    (rl rlq : List Seg)
    (hwf : WFEntries es) (hp : posOk b rl) (hq : chainPosOk rlq)
    (hz : bq ≠ b ∨ (¬ rlq <:+ rl ∧ ¬ rl <:+ rlq)) :
    contribSum (statTasksChildren (renderG b rl) es) (renderG bq rlq) =
      0 := by
  cases es with
  | nil => simp [statTasksChildren, contribSum_nil]
  | cons n c rest =>
    simp only [statTasksChildren]
    rw [contribSum_append]
    simp only [WFEntries] at hwf
    obtain ⟨hn, hwc, hwr⟩ := hwf
    have hpn : posOk b (n :: rl) := posOk_cons hn hp
    rw [join_renderG b rl n hp hn]
    have hzn : bq ≠ b ∨ (¬ rlq <:+ n :: rl ∧ ¬ (n :: rl) <:+ rlq) := by
      rcases hz with h | h
      · exact Or.inl h
      · refine Or.inr ⟨?_, ?_⟩
        · intro hs
          rcases List.suffix_cons_iff.mp hs with hs | hs
          · subst hs
            exact h.2 (List.suffix_cons n rl)
          · exact h.1 hs
        · exact fun hs => h.2 ((List.suffix_cons n rl).trans hs)
    rw [contrib_zero c b bq (n :: rl) rlq hwc hpn hq hzn,
      contribEntries_zero rest b bq rl rlq hwr hp hq hz]
    simp

end

theorem contribEntries_zero_names (es : FSEntries) (b : Bool)
    (rl rlq : List Seg)
    (hwf : WFEntries es) (hp : posOk b rl) (hq : chainPosOk rlq)
    (hnames : ∀ m ∈ es.names, ¬ rlq <:+ (m :: rl) ∧ ¬ (m :: rl) <:+ rlq) :
    contribSum (statTasksChildren (renderG b rl) es) (renderG b rlq) =
      0 := by
  cases es with
  | nil => simp [statTasksChildren, contribSum_nil]
  | cons n c rest =>
    simp only [statTasksChildren]
    rw [contribSum_append]
    simp only [WFEntries] at hwf
    obtain ⟨hn, hwc, hwr⟩ := hwf
    have hpn : posOk b (n :: rl) := posOk_cons hn hp
    rw [join_renderG b rl n hp hn]
    have hcond := hnames n (by simp [FSEntries.names])
    rw [contrib_zero c b b (n :: rl) rlq hwc hpn hq
        (Or.inr ⟨hcond.1, hcond.2⟩),
      contribEntries_zero_names rest b rl rlq hwr hp hq
        (fun m hm => hnames m (by simp [FSEntries.names, hm]))]
    simp

/-- Sibling positions do not lie on each other's path chains: a query
below the child named `n` is unrelated to the position of a sibling
named `m2 ≠ n`. -/
theorem sibling_not_comparable {rest rl : List Seg} {n m2 : Seg}
    (hne : m2 ≠ n) :
    ¬ (rest.reverse ++ (n :: rl)) <:+ (m2 :: rl) ∧
    ¬ (m2 :: rl) <:+ (rest.reverse ++ (n :: rl)) := by
  constructor
  · intro hs
    have hlen := hs.length_le
    simp only [List.length_append, List.length_reverse, List.length_cons]
      at hlen
    have hrest : rest = [] := by
      cases rest with
      | nil => rfl
      | cons x xs =>
        exfalso
        simp only [List.length_cons] at hlen
        omega
    subst hrest
    simp only [List.reverse_nil, List.nil_append] at hs
    have he : n :: rl = m2 :: rl := suffix_length_eq hs (by simp)
    exact hne ((List.cons_eq_cons.mp he).1).symm
  · intro hs
    have h2 : (n :: rl) <:+ (rest.reverse ++ (n :: rl)) :=
      List.suffix_append _ _
    have he : m2 :: rl = n :: rl := suffix_suffix_length_eq hs h2 (by simp)
    exact hne (List.cons_eq_cons.mp he).1

/-- `lookupEntry es n`: the subtree of the first entry named `n`, if
any (real listings have at most one). -/
def lookupEntry : FSEntries → Seg → Option FSNode
  | .nil, _ => none
  | .cons m c rest, n => if m = n then some c else lookupEntry rest n

/-- Follow a chain of entry names (outermost first) down from a node;
defined only through openable directories, i.e. exactly the positions
the traversal reaches below its root. -/
def descend : FSNode → List Seg → Option FSNode
  | nd, [] => some nd
  | .file _, _ :: _ => none
  | .dir _ co entries _, n :: rest =>
    if co then
      match lookupEntry entries n with
      | some c => descend c rest
      | none => none
    else none

theorem lookupEntry_wf {es : FSEntries} {n : Seg} {c : FSNode}
    (hwf : WFEntries es) (hlk : lookupEntry es n = some c) :
    properName n ∧ WellFormed c := by
  cases es with
  | nil => simp [lookupEntry] at hlk
  | cons m cm rest =>
    simp only [WFEntries] at hwf
    rw [lookupEntry] at hlk
    by_cases hm : m = n
    · rw [if_pos hm] at hlk
      injection hlk with hlk
      subst hlk
      exact ⟨hm ▸ hwf.1, hwf.2.1⟩
    · rw [if_neg hm] at hlk
      exact lookupEntry_wf hwf.2.2 hlk

theorem descend_proper {ext : List Seg} :
    ∀ {nd ndq : FSNode}, WellFormed nd → descend nd ext = some ndq →
      (∀ m ∈ ext, properName m) ∧ WellFormed ndq := by
  induction ext with
  | nil =>
    intro nd ndq hwf hdesc
    rw [descend] at hdesc
    injection hdesc with hdesc
    subst hdesc
    exact ⟨by simp, hwf⟩
  | cons n rest ih =>
    intro nd ndq hwf hdesc
    cases nd with
    | file sz => simp [descend] at hdesc
    | dir sz co entries re =>
      rw [descend] at hdesc
      by_cases hco : co = true
      · rw [if_pos hco] at hdesc
        cases hlk : lookupEntry entries n with
        | none => rw [hlk] at hdesc; simp at hdesc
        | some c =>
          rw [hlk] at hdesc
          simp only [WellFormed] at hwf
          obtain ⟨hpn, hwc⟩ := lookupEntry_wf hwf.2 hlk
          obtain ⟨hrest, hq⟩ := ih hwc hdesc
          refine ⟨?_, hq⟩
          intro m hm
          rcases List.mem_cons.mp hm with h | h
          · subst h; exact hpn
          · exact hrest m h
      · rw [if_neg hco] at hdesc
        simp at hdesc

theorem contribEntries_descend (es : FSEntries) (b : Bool)
    (rl rest : List Seg) (n : Seg) (c ndq : FSNode)
    (hwf : WFEntries es) (hnd : es.names.Nodup) (hp : posOk b rl)
    (hq : chainPosOk (rest.reverse ++ (n :: rl)))
    (hlk : lookupEntry es n = some c)
    (hchild : contribSum (statTasksOf (renderG b (n :: rl)) c)
        (renderG b (rest.reverse ++ (n :: rl))) = treeSize ndq) :
    contribSum (statTasksChildren (renderG b rl) es)
      (renderG b (rest.reverse ++ (n :: rl))) = treeSize ndq := by
  cases es with
  | nil => simp [lookupEntry] at hlk
  | cons m cm rest2 =>
    simp only [statTasksChildren]
    rw [contribSum_append]
    simp only [WFEntries] at hwf
    obtain ⟨hm, hwcm, hwr⟩ := hwf
    simp only [FSEntries.names] at hnd
    rw [List.nodup_cons] at hnd
    rw [join_renderG b rl m hp hm]
    rw [lookupEntry] at hlk
    by_cases hmn : m = n
    · rw [if_pos hmn] at hlk
      injection hlk with hlk
      subst hlk
      subst hmn
      rw [hchild]
      rw [contribEntries_zero_names rest2 b rl (rest.reverse ++ (m :: rl))
        hwr hp hq ?hnames]
      · simp
      case hnames =>
        intro m2 hm2
        have hne : m2 ≠ m := fun he => hnd.1 (he ▸ hm2)
        exact sibling_not_comparable hne
    · rw [if_neg hmn] at hlk
      have hpm : posOk b (m :: rl) := posOk_cons hm hp
      have hcond := @sibling_not_comparable rest rl n m hmn
      rw [contrib_zero cm b b (m :: rl) (rest.reverse ++ (n :: rl)) hwcm hpm
        hq (Or.inr ⟨hcond.1, hcond.2⟩)]
      rw [contribEntries_descend rest2 b rl rest n c ndq hwr hnd.2 hp hq
        hlk hchild]
      simp

theorem contrib_descend (ext : List Seg) :
    ∀ (nd ndq : FSNode) (b : Bool) (rl : List Seg), WellFormed nd →
      posOk b rl →
      descend nd ext = some ndq → ndq.isDirNode = true →
      contribSum (statTasksOf (renderG b rl) nd)
        (renderG b (ext.reverse ++ rl)) = treeSize ndq := by
  induction ext with
  | nil =>
    intro nd ndq b rl hwf hp hdesc hdir
    rw [descend] at hdesc
    injection hdesc with hdesc
    subst hdesc
    simp only [List.reverse_nil, List.nil_append]
    exact contrib_full nd b rl rl hwf hp (posOk_chainPosOk hp)
      List.suffix_rfl (Or.inr (Or.inl hdir))
  | cons n rest ih =>
    intro nd ndq b rl hwf hp hdesc hdir
    cases nd with
    | file sz => simp [descend] at hdesc
    | dir sz co entries re =>
      rw [descend] at hdesc
      by_cases hco : co = true
      case neg => rw [if_neg hco] at hdesc; simp at hdesc
      rw [if_pos hco] at hdesc
      cases hlk : lookupEntry entries n with
      | none => rw [hlk] at hdesc; simp at hdesc
      | some c =>
        rw [hlk] at hdesc
        simp only [WellFormed] at hwf
        obtain ⟨hnames, hwfe⟩ := hwf
        obtain ⟨hpn, hwc⟩ := lookupEntry_wf hwfe hlk
        obtain ⟨hrestnames, -⟩ := descend_proper hwc hdesc
        have hpnrl : posOk b (n :: rl) := posOk_cons hpn hp
        have hqshape : (n :: rest).reverse ++ rl =
            rest.reverse ++ (n :: rl) := by
          simp
        rw [hqshape]
        have hqpos : chainPosOk (rest.reverse ++ (n :: rl)) := by
          intro x hx
          rcases List.mem_append.mp hx with h | h
          · exact chainSegOk_of_properName
              (hrestnames x (List.mem_reverse.mp h))
          · exact posOk_chainPosOk hpnrl x h
        simp only [statTasksOf]
        rw [if_pos hco, contribSum_cons]
        have hchain : dirChain ⟨renderG b rl, sz, true, co, re⟩ =
            ancestorChain (renderG b rl) := by simp [dirChain]
        have hown : ¬ (rest.reverse ++ (n :: rl)) <:+ rl := by
          intro hs
          have hlen := hs.length_le
          simp only [List.length_append, List.length_reverse,
            List.length_cons] at hlen
          omega
        rw [hchain,
          count_ancestorChain_renderG b b rl (rest.reverse ++ (n :: rl))
            hp hqpos,
          if_neg (fun hc => hown hc.2)]
        rw [contribEntries_descend entries b rl rest n c ndq hwfe hnames hp
          hqpos hlk (ih c ndq b (n :: rl) hwc hpnrl hdesc hdir)]
        simp

/-! ### Runs seeded with several root items

`DUDU` seeds one task per named item (dudu.go 96–107); the workers'
aggregations land in the single shared `dirCounts`.  A root item is
described by its cleaned path (base and position) and its subtree. -/

/-- One root item of a run: its path is `renderG absolute pos` — any
`path.Clean` normal form — and `tree` is the filesystem below it. -/
structure RootSpec where
  absolute : Bool
  pos : List Seg
  tree : FSNode

/-- The path of a root item. -/
def rootPath (r : RootSpec) : Path :=
  renderG r.absolute r.pos

/-- The tasks of the traversal below one root item. -/
def rootTasks (r : RootSpec) : List StatTask :=
  statTasksOf (rootPath r) r.tree

/-- All tasks of a run seeded with a list of root items. -/
def allRootTasks (roots : List RootSpec) : List StatTask :=
  (roots.map rootTasks).flatten

/-- A valid root item: its position fits its base and its tree is a
real listing. -/
def rootOk (r : RootSpec) : Prop :=
  posOk r.absolute r.pos ∧ WellFormed r.tree

/-- Two root paths neither equal nor one an ancestor of the other (on
distinct bases the subtrees of `"."`-relative and `"/"`-absolute paths
never meet). -/
def sepRoots (r1 r2 : RootSpec) : Prop :=
  r1.absolute ≠ r2.absolute ∨ (¬ r1.pos <:+ r2.pos ∧ ¬ r2.pos <:+ r1.pos)

theorem allRootTasks_nil : allRootTasks [] = [] := rfl

theorem allRootTasks_cons (x : RootSpec) (xs : List RootSpec) :
    allRootTasks (x :: xs) = rootTasks x ++ allRootTasks xs := by
  simp [allRootTasks]

theorem allRootTasks_append (xs ys : List RootSpec) :
    allRootTasks (xs ++ ys) = allRootTasks xs ++ allRootTasks ys := by
  simp [allRootTasks]

/-- Two suffixes of one list are comparable. -/
theorem suffix_comparable {l1 l2 L : List Seg} (h1 : l1 <:+ L)
    (h2 : l2 <:+ L) : l1 <:+ l2 ∨ l2 <:+ l1 := by
  obtain ⟨p1, hp1⟩ := h1
  obtain ⟨p2, hp2⟩ := h2
  rw [← hp2] at hp1
  rcases List.append_eq_append_iff.mp hp1 with ⟨a2, ha, hb⟩ | ⟨c2, hc, hd⟩
  · exact Or.inr ⟨a2, hb.symm⟩
  · exact Or.inl ⟨c2, hd.symm⟩

/-- A query below one root receives nothing from the traversals of
separated other roots. -/
theorem rootsContrib_zero (xs : List RootSpec) (bq : Bool)
    (rlq : List Seg)
    (hok : ∀ x ∈ xs, rootOk x) (hq : chainPosOk rlq)
    (hz : ∀ x ∈ xs, bq ≠ x.absolute ∨
      (¬ rlq <:+ x.pos ∧ ¬ x.pos <:+ rlq)) :
    contribSum (allRootTasks xs) (renderG bq rlq) = 0 := by
  induction xs with
  | nil => simp [allRootTasks_nil, contribSum_nil]
  | cons x xs2 ih =>
    rw [allRootTasks_cons, contribSum_append]
    have hx := hok x (List.mem_cons_self _ _)
    have hone : contribSum (rootTasks x) (renderG bq rlq) = 0 := by
      simp only [rootTasks, rootPath]
      exact contrib_zero x.tree x.absolute bq x.pos rlq hx.2 hx.1 hq
        (hz x (List.mem_cons_self _ _))
    rw [hone,
      ih (fun y hy => hok y (List.mem_cons_of_mem _ hy))
        (fun y hy => hz y (List.mem_cons_of_mem _ hy))]
    simp

theorem Store.ext_thm {s1 s2 : Store}
    (hf : ∀ q, s1.fileCounts q = s2.fileCounts q)
    (hd : ∀ q, s1.dirCounts q = s2.dirCounts q) : s1 = s2 := by
  cases s1; cases s2
  simp only [Store.mk.injEq]
  exact ⟨funext hf, funext hd⟩

/-- Each task's aggregation is a pointwise addition, so two tasks'
aggregations commute (the lock in `statter` makes each ancestor-chain
walk atomic, so a schedule is an interleaving of whole walks). -/
theorem statPhase_comm (st : Store) (t1 t2 : StatTask) :
    statPhase (statPhase st t1) t2 = statPhase (statPhase st t2) t1 := by
  apply Store.ext_thm
  · intro q
    rw [statPhase_fileCounts, statPhase_fileCounts, statPhase_fileCounts,
      statPhase_fileCounts]
    ring
  · intro q
    rw [statPhase_dirCounts, statPhase_dirCounts, statPhase_dirCounts,
      statPhase_dirCounts]
    ring

/-- The final store is invariant under reordering of the task list. -/
theorem runStore_perm {ts1 ts2 : List StatTask} (hperm : ts1.Perm ts2)
    (st : Store) : runStore ts1 st = runStore ts2 st := by
  unfold runStore
  exact hperm.foldl_eq'
    (fun x _hx y _hy z => statPhase_comm z x y) st

/-! ### Completion-tracker accounting (`sync.WaitGroup`) -/

/-- Lifecycle phase of one traversal task.  `created` is the state
right after `wg.Add(1)` and before the task is placed anywhere a worker
could reach it. -/
inductive TaskPhase : Type where
  | created
  | queued
  | running
  | done
deriving DecidableEq

/-- True while the task still counts as outstanding. -/
def notDone (p : TaskPhase) : Bool :=
  decide (p ≠ TaskPhase.done)

/-- State of the completion accounting: the phase of every task ever
created, in creation order, and the WaitGroup counter. -/
structure WgState where
  tasks : List TaskPhase
  wg : Int
deriving DecidableEq

def WgState.init : WgState := ⟨[], 0⟩

/-- Steps of the WaitGroup protocol exactly as `DUDU`/`statter` perform
them: `create` is `wg.Add(1)`, always executed before the new task is
reachable (dudu.go 92, 105, 360); `publish` places a created task in the
work queue or a local overflow list (93, 106, 361–371); `take` lets a
worker obtain a published task (300–318); `finish` is the task's single
`wg.Done()`, at the end of its processing or after a failed directory
open (353, 382). -/
inductive WgStep : WgState → WgState → Prop where
  | create (s : WgState) :
      WgStep s ⟨s.tasks ++ [.created], s.wg + 1⟩
  | publish (s : WgState) (i : Nat) (h : s.tasks[i]? = some .created) :
      WgStep s ⟨s.tasks.set i .queued, s.wg⟩
  | take (s : WgState) (i : Nat) (h : s.tasks[i]? = some .queued) :
      WgStep s ⟨s.tasks.set i .running, s.wg⟩
  | finish (s : WgState) (i : Nat) (h : s.tasks[i]? = some .running) :
      WgStep s ⟨s.tasks.set i .done, s.wg - 1⟩

/-- States the accounting can be in during a run. -/
def WgReachable : WgState → Prop :=
  Relation.ReflTransGen WgStep WgState.init

theorem countP_set_balance (pred : TaskPhase → Bool) {l : List TaskPhase}
    {i : Nat} {a : TaskPhase} (b : TaskPhase) (h : l[i]? = some a) :
    (l.set i b).countP pred + (if pred a then 1 else 0) =
      l.countP pred + (if pred b then 1 else 0) := by
  induction l generalizing i with
  | nil => simp at h
  | cons x xs ih =>
    cases i with
    | zero =>
      simp only [List.getElem?_cons_zero] at h
      injection h with h
      subst h
      simp only [List.set_cons_zero, List.countP_cons]
      omega
    | succ j =>
      simp only [List.getElem?_cons_succ] at h
      simp only [List.set_cons_succ, List.countP_cons]
      have h2 := ih h
      omega

theorem wg_counts {s : WgState} (h : WgReachable s) :
    s.wg = (s.tasks.countP notDone : Int) := by
  induction h with
  | refl => simp [WgState.init]
  | tail hpre hstep ih =>
    cases hstep with
    | create =>
      simp only [List.countP_append]
      have : notDone .created = true := by decide
      simp [this]
      omega
    | publish i hi =>
      have hb := countP_set_balance notDone TaskPhase.queued hi
      have h1 : notDone .created = true := by decide
      have h2 : notDone .queued = true := by decide
      rw [h1, h2] at hb
      simp at hb
      rw [ih]
      simp only
      omega
    | take i hi =>
      have hb := countP_set_balance notDone TaskPhase.running hi
      have h1 : notDone .queued = true := by decide
      have h2 : notDone .running = true := by decide
      rw [h1, h2] at hb
      simp at hb
      rw [ih]
      simp only
      omega
    | finish i hi =>
      have hb := countP_set_balance notDone TaskPhase.done hi
      have h1 : notDone .running = true := by decide
      have h2 : notDone .done = false := by decide
      rw [h1, h2] at hb
      simp at hb
      rw [ih]
      simp only
      omega

/-! ### Task-pool slot accounting -/

/-- Pool-slot accounting: `free` slot objects in the `freeStatTasks`
channel, `hand` slot objects momentarily held by `DUDU` or a worker
between two channel operations, `queue` slot objects sitting in the
`statTasks` channel, and `overflow` tasks parked on workers' local
lists (local-list records are fresh objects holding no slot,
dudu.go 366–371). -/
structure PoolState where
  free : Nat
  hand : Nat
  queue : Nat
  overflow : Nat
deriving DecidableEq

/-- At startup `DUDU` puts exactly `limit` fresh slot objects into
`freeStatTasks` (dudu.go 79–81). -/
def PoolState.init (limit : Nat) : PoolState := ⟨limit, 0, 0, 0⟩

/-- Slot movements of `DUDU`/`statter`: `acquire` is `<-freeStatTasks`
(dudu.go 89, 102, 305, 362); `send` is `statTasks <- ct` (93, 106, 308,
365); `receive` is `ct := <-statTasks` (315); `release` is
`freeStatTasks <- ct` (318); `park` appends a fresh non-pool record to
a worker's local list when no slot is free (366–371); `unpark` pops a
local record for in-place processing (300–313).  No step creates a
slot object. -/
inductive PoolStep : PoolState → PoolState → Prop where
  | acquire (s : PoolState) (h : 0 < s.free) :
      PoolStep s ⟨s.free - 1, s.hand + 1, s.queue, s.overflow⟩
  | send (s : PoolState) (h : 0 < s.hand) :
      PoolStep s ⟨s.free, s.hand - 1, s.queue + 1, s.overflow⟩
  | receive (s : PoolState) (h : 0 < s.queue) :
      PoolStep s ⟨s.free, s.hand + 1, s.queue - 1, s.overflow⟩
  | release (s : PoolState) (h : 0 < s.hand) :
      PoolStep s ⟨s.free + 1, s.hand - 1, s.queue, s.overflow⟩
  | park (s : PoolState) :
      PoolStep s ⟨s.free, s.hand, s.queue, s.overflow + 1⟩
  | unpark (s : PoolState) (h : 0 < s.overflow) :
      PoolStep s ⟨s.free, s.hand, s.queue, s.overflow - 1⟩

def PoolReachable (limit : Nat) : PoolState → Prop :=
  Relation.ReflTransGen PoolStep (PoolState.init limit)

/-- Slot conservation: the `limit` slot objects made at startup are the
only ones that ever exist. -/
theorem pool_conservation {limit : Nat} {s : PoolState}
    (h : PoolReachable limit s) : s.free + s.hand + s.queue = limit := by
  induction h with
  | refl => simp [PoolState.init]
  | tail hpre hstep ih =>
    cases hstep with
    | acquire h1 => simp only at ih ⊢; omega
    | send h1 => simp only at ih ⊢; omega
    | receive h1 => simp only at ih ⊢; omega
    | release h1 => simp only at ih ⊢; omega
    | park => simp only at ih ⊢; omega
    | unpark h1 => simp only at ih ⊢; omega

/-! ### Sink consumers -/

/-- The sink-consumer loop of `DUDU` (dudu.go 49–58 for messages, 63–73
for errors): receive a value; an empty string ends the loop, any other
value is handled (printed, and counted for the error sink).  The
argument is the sequence of values the successive receives return — a
receive after `close` returns the zero value `""`. -/
def sinkConsume : List Path → List Path
  | [] => []
  | msg :: rest => if msg = [] then [] else msg :: sinkConsume rest

/-- The error counter after the error-sink consumer has drained: one
increment per handled line (dudu.go 69). -/
def errCounterOf (deliveries : List Path) : Nat :=
  (sinkConsume deliveries).length

/-! ### The `DUDU` entry function -/

/-- Outcome of a `DUDU` run that returns: the final store, the final
error-counter value, and whether the function returns an error —
dudu.go 164–168: failure exactly when the counter is positive. -/
structure RunOutcome where
  store : Store
  errCount : Nat
  failed : Bool

/-- Model of `DUDU` (dudu.go 32–169) over a fixed filesystem.  Each
requested item is paired with its `os.Lstat` outcome: `none` when the
stat fails, otherwise the subtree rooted at the item.  With no items,
the current directory `"."` is statted and traversed (dudu.go 84–94);
a stat failure there is reported on the still-open `errs` channel and
counted.  With explicit items, failed stats are reported and skipped at
seeding (96–107), but the output phase stats every item a second time
(line 134); the tree being fixed, the same stats fail again and the
error is sent to `errs` (line 136) — a channel closed on line 114.  A
send on a closed channel panics in Go; a panicking run is `none`. -/
def DUDU (items : List (Path × Option FSNode)) (dotFS : Option FSNode) :
    Option RunOutcome :=
  if items.isEmpty then
    match dotFS with
    | none => some ⟨emptyStore, 1, true⟩
    | some nd =>
      let ts := statTasksOf ['.'] nd
      let n := (runErrors ts).length
      some ⟨runStore ts emptyStore, n, decide (0 < n)⟩
  else
    let ts := (items.filterMap
      (fun it => it.2.map (fun nd => statTasksOf it.1 nd))).flatten
    let seedErrs := (items.filter (fun it => it.2.isNone)).length
    let n := seedErrs + (runErrors ts).length
    if items.any (fun it => it.2.isNone) then none
    else some ⟨runStore ts emptyStore, n, decide (0 < n)⟩

mutual
/-- The sum the claim's words describe, written from the claim (to be
compared with what the code computes): the stat sizes of a node and of
every entry beneath it in the given tree, whether or not the traversal
can reach them through a failed directory open. -/
def fullSubtreeSize : FSNode → Int
  | .file sz => sz
  | .dir sz _ entries _ => sz + fullEntriesSize entries

def fullEntriesSize : FSEntries → Int
  | .nil => 0
  | .cons _ c rest => fullSubtreeSize c + fullEntriesSize rest
end

/-! ## The claims -/

/-- C1, counterexample: the claim as stated is false, in three ways,
each shown on a concrete run.

First, a root path not in `path.Clean` normal form: with the single
root item `"a/"` — a directory of stat size 0 holding one 5-byte
file — the directory `"a/"` is visited (it is a task's path), yet its
final aggregate is 0, not 0 + 5: the child path is
`path.Join("a/", "f") = "a/f"`, whose ancestor chain passes through
the distinct key `"a"`, never through `"a/"`.

Second, one root item equal to or below another: seeding with the
items `"a"` and `"a/b"` (where `"a"` is a directory of size 0 holding
`"b"`, a directory of size 0 holding one 5-byte file) visits `"a/b"`
twice, and its final aggregate is 10 — twice the 5 of its subtree.

Third, entries behind a failed directory open: with root `"."` holding
one unopenable directory `"d"` (stat size 0) whose listing holds a
5-byte file, the visited root `"."` ends with aggregate 0, though the
sum of the sizes of all entries beneath it in the tree is 5 — the
entries behind the failed open are skipped, not merely summed
elsewhere. -/
theorem c1_counterexample :
    ((runStore (statTasksOf ['a', '/']
        (.dir 0 true (.cons ['f'] (.file 5) .nil) false))
      emptyStore).dirCounts ['a', '/'] = 0 ∧
    treeSize (.dir 0 true (.cons ['f'] (.file 5) .nil) false) = 5 ∧
    (runStore (statTasksOf ['a', '/']
        (.dir 0 true (.cons ['f'] (.file 5) .nil) false))
      emptyStore).dirCounts ['a'] = 5) ∧
    ((runStore (statTasksOf ['a']
        (.dir 0 true (.cons ['b']
          (.dir 0 true (.cons ['f'] (.file 5) .nil) false) .nil) false) ++
        statTasksOf ['a', '/', 'b']
          (.dir 0 true (.cons ['f'] (.file 5) .nil) false))
      emptyStore).dirCounts ['a', '/', 'b'] = 10 ∧
    treeSize (.dir 0 true (.cons ['f'] (.file 5) .nil) false) = 5) ∧
    ((runStore (statTasksOf ['.']
        (.dir 0 true (.cons ['d']
          (.dir 0 false (.cons ['f'] (.file 5) .nil) false) .nil) false))
      emptyStore).dirCounts ['.'] = 0 ∧
    fullSubtreeSize (.dir 0 true (.cons ['d']
        (.dir 0 false (.cons ['f'] (.file 5) .nil) false) .nil) false) =
      5) := by
  decide

/-- C1, amended: for a run seeded with any list of root items whose
paths are in `path.Clean` normal form — relative positions over the
base `"."` (the default root `"."`, `".."…` prefixes, `a/b/…/c`) or
absolute positions over `"/"` — no root path equal to or an ancestor
of another, each over a well-formed tree, the final `dirCounts`
aggregate of every visited directory (every position reached through
openable directories below some root) equals the sum of the stat sizes
of all reachable entries strictly beneath it plus its own stat size
(`treeSize`): no reachable entry contributes more than once and none
is skipped, while entries behind a failed directory open contribute
nothing. -/
theorem c1_aggregate_correct (roots : List RootSpec) (r : RootSpec)
    (ext : List Seg) (ndq : FSNode)
    (hok : ∀ x ∈ roots, rootOk x)
    (hsep : List.Pairwise sepRoots roots)
    (hmem : r ∈ roots)
    (hdesc : descend r.tree ext = some ndq)
    (hdir : ndq.isDirNode = true) :
    (runStore (allRootTasks roots) emptyStore).dirCounts
      (renderG r.absolute (ext.reverse ++ r.pos)) = treeSize ndq := by
  obtain ⟨l1, l2, hsplit⟩ := List.append_of_mem hmem
  subst hsplit
  have hrok := hok r (List.mem_append_right _ (List.mem_cons_self _ _))
  obtain ⟨hextnames, -⟩ := descend_proper hrok.2 hdesc
  have hq : chainPosOk (ext.reverse ++ r.pos) := by
    intro x hx
    rcases List.mem_append.mp hx with h | h
    · exact chainSegOk_of_properName (hextnames x (List.mem_reverse.mp h))
    · exact posOk_chainPosOk hrok.1 x h
  have hrsuf : r.pos <:+ ext.reverse ++ r.pos := List.suffix_append _ _
  rw [List.pairwise_append] at hsep
  obtain ⟨hsep1, hsep2, hsepcross⟩ := hsep
  rw [List.pairwise_cons] at hsep2
  have hzgen : ∀ x : RootSpec, sepRoots x r ∨ sepRoots r x →
      r.absolute ≠ x.absolute ∨
        (¬ (ext.reverse ++ r.pos) <:+ x.pos ∧
         ¬ x.pos <:+ (ext.reverse ++ r.pos)) := by
    intro x hsx
    have hx : x.absolute ≠ r.absolute ∨
        (¬ x.pos <:+ r.pos ∧ ¬ r.pos <:+ x.pos) := by
      rcases hsx with h | h
      · exact h
      · rcases h with h | h
        · exact Or.inl (Ne.symm h)
        · exact Or.inr ⟨h.2, h.1⟩
    rcases hx with h | h
    · exact Or.inl (Ne.symm h)
    · refine Or.inr ⟨?_, ?_⟩
      · exact fun hs => h.2 (hrsuf.trans hs)
      · intro hs
        rcases suffix_comparable hs hrsuf with hc | hc
        · exact h.1 hc
        · exact h.2 hc
  rw [runStore_dirCounts, allRootTasks_append, allRootTasks_cons,
    contribSum_append, contribSum_append]
  have hmid : contribSum (rootTasks r)
      (renderG r.absolute (ext.reverse ++ r.pos)) = treeSize ndq := by
    simp only [rootTasks, rootPath]
    exact contrib_descend ext r.tree ndq r.absolute r.pos hrok.2 hrok.1
      hdesc hdir
  have hz1 : contribSum (allRootTasks l1)
      (renderG r.absolute (ext.reverse ++ r.pos)) = 0 :=
    rootsContrib_zero l1 _ _
      (fun x hx => hok x (List.mem_append_left _ hx)) hq
      (fun x hx => hzgen x (Or.inl
        (hsepcross x hx r (List.mem_cons_self _ _))))
  have hz2 : contribSum (allRootTasks l2)
      (renderG r.absolute (ext.reverse ++ r.pos)) = 0 :=
    rootsContrib_zero l2 _ _
      (fun y hy => hok y (List.mem_append_right _
        (List.mem_cons_of_mem _ hy))) hq
      (fun y hy => hzgen y (Or.inr (hsep2.1 y hy)))
  rw [hmid, hz1, hz2]
  simp [emptyStore]

theorem c1_aggregate_correct_witness :
    (runStore (allRootTasks
        [⟨false, [['a']], .dir 1 true (.cons ['f'] (.file 5) .nil) false⟩,
         ⟨true, [], .dir 0 true (.cons ['g'] (.file 7) .nil) false⟩])
      emptyStore).dirCounts
        (renderG false (([] : List Seg).reverse ++ [['a']])) =
      treeSize (.dir 1 true (.cons ['f'] (.file 5) .nil) false) :=
  c1_aggregate_correct
    [⟨false, [['a']], .dir 1 true (.cons ['f'] (.file 5) .nil) false⟩,
     ⟨true, [], .dir 0 true (.cons ['g'] (.file 7) .nil) false⟩]
    ⟨false, [['a']], .dir 1 true (.cons ['f'] (.file 5) .nil) false⟩
    [] (.dir 1 true (.cons ['f'] (.file 5) .nil) false)
    (by
      intro x hx
      rcases List.mem_cons.mp hx with h | h
      · subst h
        exact ⟨⟨[['a']], [], rfl, by decide, by decide⟩,
          by decide, by decide, trivial, trivial⟩
      · rw [List.mem_singleton] at h
        subst h
        exact ⟨properPos_nil, by decide, by decide, trivial, trivial⟩)
    (by
      refine List.pairwise_cons.mpr ⟨?_, List.pairwise_singleton _ _⟩
      intro y hy
      rw [List.mem_singleton] at hy
      subst hy
      exact Or.inl (by decide))
    (List.mem_cons_self _ _) rfl (by decide)

/-- C2: Scenario B — a root directory `"."` containing two files of 10
and 20 bytes and one empty subdirectory (directory stat sizes 0, as the
scenario's expected totals imply) yields root aggregate 30 and
subdirectory aggregate 0; Scenario E — an empty root directory yields
aggregate 0 with zero errors. -/
theorem c2_scenarios :
    (runStore (statTasksOf ['.'] (.dir 0 true (.cons ['f', '1'] (.file 10)
        (.cons ['f', '2'] (.file 20) (.cons ['s', 'u', 'b']
          (.dir 0 true .nil false) .nil))) false)) emptyStore).dirCounts
      ['.'] = 30 ∧
    (runStore (statTasksOf ['.'] (.dir 0 true (.cons ['f', '1'] (.file 10)
        (.cons ['f', '2'] (.file 20) (.cons ['s', 'u', 'b']
          (.dir 0 true .nil false) .nil))) false)) emptyStore).dirCounts
      ['s', 'u', 'b'] = 0 ∧
    (runStore (statTasksOf ['.'] (.dir 0 true .nil false))
        emptyStore).dirCounts ['.'] = 0 ∧
    runErrors (statTasksOf ['.'] (.dir 0 true .nil false)) = [] := by
  decide

/-- C3: in every reachable state of the WaitGroup protocol — where
`wg.Add(1)` happens at task creation, before the task is published
anywhere a worker could reach it, and each task's single `wg.Done()`
happens at its terminal processing step — the counter equals the number
of tasks created but not yet fully processed, it is never negative, and
it is zero exactly when every task ever created is done. -/
theorem c3_completion_tracker (s : WgState) (h : WgReachable s) :
    s.wg = (s.tasks.countP notDone : Int) ∧ 0 ≤ s.wg ∧
      (s.wg = 0 ↔ ∀ p ∈ s.tasks, p = TaskPhase.done) := by
  have h1 := wg_counts h
  refine ⟨h1, ?_, ?_⟩
  · rw [h1]
    exact Int.natCast_nonneg _
  · rw [h1]
    constructor
    · intro h2
      have h3 : s.tasks.countP notDone = 0 := by exact_mod_cast h2
      rw [List.countP_eq_zero] at h3
      intro p hp
      have h4 := h3 p hp
      simpa [notDone] using h4
    · intro h2
      have h3 : s.tasks.countP notDone = 0 := by
        rw [List.countP_eq_zero]
        intro p hp
        simp [notDone, h2 p hp]
      rw [h3]
      rfl

theorem c3_completion_tracker_witness :
    (1 : Int) = (([TaskPhase.created].countP notDone : Nat) : Int) ∧
      (0 : Int) ≤ 1 ∧
      ((1 : Int) = 0 ↔ ∀ p ∈ [TaskPhase.created], p = TaskPhase.done) :=
  c3_completion_tracker ⟨[TaskPhase.created], 1⟩
    (Relation.ReflTransGen.single (WgStep.create WgState.init))

/-- C4: slot conservation — exactly `limit` slot objects exist, the
ones `DUDU` creates at startup — so at no reachable state are more than
`limit` slots borrowed (out of the `freeStatTasks` channel), no matter
how many entries a directory has; a worker that finds no free slot
parks the child on its local overflow list, which holds no slot. -/
theorem c4_slot_bound (limit : Nat) (s : PoolState)
    (h : PoolReachable limit s) :
    s.free + s.hand + s.queue = limit ∧ s.hand + s.queue ≤ limit := by
  have hc := pool_conservation h
  omega

theorem c4_slot_bound_witness :
    (1 : Nat) + 1 + 0 = 2 ∧ (1 : Nat) + 0 ≤ 2 :=
  c4_slot_bound 2 ⟨1, 1, 0, 0⟩
    (Relation.ReflTransGen.single (PoolStep.acquire (PoolState.init 2)
      (by decide)))

/-- C5: evaluation of the code at the failing input.  With one named
root item whose `os.Lstat` fails, `DUDU` reaches the output phase,
stats the item again, fails again, and sends the error on the `errs`
channel that was closed on line 114 — a send on a closed channel, so
the run panics (`none`) instead of terminating normally with the error
count.  By contrast, with no items and a failing stat of `"."`, the
error is sent while the channel is open and the run returns failure
with count 1, as the claim describes. -/
theorem c5_failed_root_stat_panics :
    DUDU [(['x'], none)] none = none ∧
      DUDU [] none = some ⟨emptyStore, 1, true⟩ :=
  ⟨rfl, rfl⟩

/-- C6: for a directory task whose `os.Open` fails, the error sink
receives exactly one line tagged with the directory's path, the subtree
contributes no child tasks, the directory's stat size has nevertheless
been added to its own aggregate and to every ancestor's aggregate (the
aggregation of dudu.go 323–348 runs before the open on line 350), and
the remaining tasks are still processed. -/
theorem c6_dir_open_failure (rl : List Seg) (hp : properPos rl) (sz : Int)
    (entries : FSEntries) (re : Bool) (st : Store)
    (ts1 ts2 : List StatTask) :
    taskErrors ⟨render rl, sz, true, false, re⟩ = [render rl] ∧
    statTasksOf (render rl) (.dir sz false entries re) =
      [⟨render rl, sz, true, false, re⟩] ∧
    (∀ rlq, rlq <:+ rl →
      (statPhase st ⟨render rl, sz, true, false, re⟩).dirCounts
          (render rlq) = st.dirCounts (render rlq) + sz) ∧
    runStore (ts1 ++ ⟨render rl, sz, true, false, re⟩ :: ts2) st =
      runStore ts2 (statPhase (runStore ts1 st)
        ⟨render rl, sz, true, false, re⟩) := by
  refine ⟨by simp [taskErrors], by simp [statTasksOf], ?_, ?_⟩
  · intro rlq hsuf
    have hq : properPos rlq := fun m hm => hp m (hsuf.subset hm)
    have hch : dirChain ⟨render rl, sz, true, false, re⟩ =
        ancestorChain (render rl) := by simp [dirChain]
    rw [statPhase_dirCounts, hch,
      count_ancestorChain_render rl rlq hp hq, if_pos hsuf]
    simp
  · simp [runStore, List.foldl_append]

theorem c6_dir_open_failure_witness :
    taskErrors ⟨render [['d']], 7, true, false, false⟩ = [render [['d']]] ∧
    statTasksOf (render [['d']]) (.dir 7 false .nil false) =
      [⟨render [['d']], 7, true, false, false⟩] ∧
    (∀ rlq, rlq <:+ [['d']] →
      (statPhase emptyStore ⟨render [['d']], 7, true, false, false⟩).dirCounts
          (render rlq) = emptyStore.dirCounts (render rlq) + 7) ∧
    runStore ([] ++ ⟨render [['d']], 7, true, false, false⟩ :: [])
        emptyStore =
      runStore [] (statPhase (runStore [] emptyStore)
        ⟨render [['d']], 7, true, false, false⟩) :=
  c6_dir_open_failure [['d']] (by decide) 7 .nil false emptyStore [] []

/-- C7: each sink consumer handles exactly the longest prefix of
delivered values before the first empty string — the zero value a
receive yields after `close`, or any empty string sent while the
channel is open — so a legitimately empty message sent before the close
ends the consumer early and later messages are lost, as the concrete
instance `["a", "", "b"]` shows. -/
theorem c7_sink_sentinel :
    (∀ deliveries : List Path,
      sinkConsume deliveries =
        deliveries.takeWhile (fun m => !(m == []))) ∧
    sinkConsume [['a'], [], ['b']] = [['a']] := by
  constructor
  · intro deliveries
    induction deliveries with
    | nil => rfl
    | cons m rest ih =>
      rw [sinkConsume, List.takeWhile_cons]
      by_cases hm : m = []
      · subst hm
        simp
      · rw [if_neg hm, ih]
        simp [hm]
  · decide

/-- C8: the final aggregate maps do not depend on the order in which
the workers process the tasks of a fixed tree: every interleaving of
the lock-protected per-task aggregations (a permutation of the task
list) produces the same store, because each aggregation is a pointwise
addition and additions commute and associate. -/
theorem c8_schedule_independent (fs : FSNode) (root : Path)
    (ts : List StatTask) (hperm : ts.Perm (statTasksOf root fs))
    (st : Store) :
    runStore ts st = runStore (statTasksOf root fs) st :=
  runStore_perm hperm st

theorem c8_schedule_independent_witness :
    runStore [⟨['f'], 1, false, true, false⟩, ⟨['.'], 0, true, true, false⟩]
        emptyStore =
      runStore (statTasksOf ['.']
        (.dir 0 true (.cons ['f'] (.file 1) .nil) false)) emptyStore :=
  c8_schedule_independent (.dir 0 true (.cons ['f'] (.file 1) .nil) false)
    ['.'] [⟨['f'], 1, false, true, false⟩, ⟨['.'], 0, true, true, false⟩]
    (by decide) emptyStore

/-- C9: the ancestor-accumulation loop of `statter` terminates for
every path string: iterating `path.Dir` from any path reaches `"."` or
`"/"` within `slashCount p + 1` steps, so each lock-held chain walk is
finite. -/
theorem c9_dir_iteration_terminates (p : Path) :
    ∃ n : Nat, n ≤ slashCount p + 1 ∧
      (dir^[n] p = ['.'] ∨ dir^[n] p = ['/']) := by
  obtain ⟨n, hn, hstop⟩ := dirIter_reaches_stop p
  refine ⟨n, ?_, hstop⟩
  have h2 : chainMeasure p ≤ slashCount p + 1 := by
    unfold chainMeasure
    split <;> omega
  omega

/-- C10: every object in the work queue is one of the `limit` pool
slots acquired from `freeStatTasks` (a promoted overflow task is first
copied into a freshly acquired slot, dudu.go 304–309), so the queue —
whose channel capacity is `limit` — never holds more than `limit`
objects; and whenever a worker holds a freshly acquired slot, the queue
has strictly fewer than `limit` objects, so the send that follows an
acquisition always completes without waiting for consumers. -/
theorem c10_work_queue_slots (limit : Nat) (s : PoolState)
    (h : PoolReachable limit s) :
    s.queue ≤ limit ∧ (0 < s.hand → s.queue < limit) := by
  have hc := pool_conservation h
  omega

theorem c10_work_queue_slots_witness :
    (0 : Nat) ≤ 2 ∧ (0 < (1 : Nat) → (0 : Nat) < 2) :=
  c10_work_queue_slots 2 ⟨1, 1, 0, 0⟩
    (Relation.ReflTransGen.single (PoolStep.acquire (PoolState.init 2)
      (by decide)))

end Dudu
